import Mathlib

/-!
Verification development for the WaybackTweets URL-normalization and
record-assembly pipeline.

The Python sources are embedded shallowly: strings are `List Char`,
every function is a computable Lean function mirroring the source
line by line, stateful code threads its state explicitly, and code
that can raise returns `Except`/an explicit error constructor.
Python standard-library calls (`urllib.parse.unquote`,
`urllib.parse.urlparse`, `html.unescape`, `datetime.strptime`) are
modelled for the ASCII inputs this code base feeds them.
-/

namespace WaybackTweets

/-- Python exceptions that the embedded code can raise. -/
inductive PyExc where
  | keyError
  | attributeError
  | indexError
deriving DecidableEq, Repr

/-- Decidable equality for `Except` results of the embedded fallible code. -/
def exceptDecEq {ε α : Type} [DecidableEq ε] [DecidableEq α] :
    (a b : Except ε α) → Decidable (a = b)
  | .ok a, .ok b =>
    if h : a = b then .isTrue (by rw [h]) else .isFalse (by simp [h])
  | .error a, .error b =>
    if h : a = b then .isTrue (by rw [h]) else .isFalse (by simp [h])
  | .ok _, .error _ => .isFalse (by simp)
  | .error _, .ok _ => .isFalse (by simp)

instance {ε α : Type} [DecidableEq ε] [DecidableEq α] : DecidableEq (Except ε α) :=
  exceptDecEq

/-- ASCII lower-casing, the behaviour of Python `str.lower()` on the
ASCII strings this pipeline manipulates. -/
def lowerStr (l : List Char) : List Char := l.map Char.toLower

/-- `semicolon_parser` (utils.py): replaces every `;` character by the
three characters `%3B`, character by character. -/
def semicolonParser : List Char → List Char
  | [] => []
  | c :: t => (if c = ';' then '%' :: '3' :: 'B' :: [] else [c]) ++ semicolonParser t

/-- Scanner for Python `str.count("/status/")`: counts non-overlapping
occurrences left to right; after a hit the scan resumes past the match.
The `skip` argument is the number of characters still to pass over
from the previous hit. -/
def countStatusGo : Nat → List Char → Nat
  | _, [] => 0
  | s + 1, _ :: t => countStatusGo s t
  | 0, c :: t =>
    if "/status/".data <+: (c :: t) then 1 + countStatusGo 7 t
    else countStatusGo 0 t

/-- `url.count("/status/")` as used by `check_double_status` and
`is_tweet_url` (utils.py). -/
def countStatus (l : List Char) : Nat := countStatusGo 0 l

/-- Substring test, Python's `in` on strings. -/
def strContains (hay needle : List Char) : Prop := needle <:+: hay

instance (hay needle : List Char) : Decidable (strContains hay needle) :=
  List.decidableInfix needle hay

/-- `check_double_status` (utils.py): true iff the Wayback Machine URL
contains exactly two occurrences of `/status/` and the original tweet
URL does not contain `twitter.com`. -/
def checkDoubleStatus (waybackMachineUrl originalTweetUrl : List Char) : Bool :=
  countStatus waybackMachineUrl = 2 ∧ ¬ strContains originalTweetUrl "twitter.com".data

/-- `is_tweet_url` (utils.py): true iff the URL contains `/status/`
exactly once. -/
def isTweetUrl (twitterUrl : List Char) : Bool :=
  countStatus twitterUrl = 1

/-- One scanning step of `re.sub(r"(http:|https:)(/{2,})", ...)` in
`check_url_scheme` (utils.py), with explicit fuel so the definition is
structural. A match consumes the scheme and the whole greedy run of
slashes and emits the scheme followed by exactly two slashes; otherwise
one character is copied and the scan advances. The fuel only needs to
dominate the length of the list. -/
def cusFuel : Nat → List Char → List Char
  | 0, l => l
  | _ + 1, [] => []
  | f + 1, c :: t =>
    if "http://".data <+: (c :: t) then
      "http://".data ++ cusFuel f (((c :: t).drop 5).dropWhile (· = '/'))
    else if "https://".data <+: (c :: t) then
      "https://".data ++ cusFuel f (((c :: t).drop 6).dropWhile (· = '/'))
    else c :: cusFuel f t

/-- `check_url_scheme` (utils.py): collapses any run of two or more
slashes immediately following `http:` or `https:` to exactly two. -/
def checkUrlScheme (l : List Char) : List Char := cusFuel l.length l

/-- Whether a list starts with an ASCII digit. -/
def digitHead : List Char → Bool
  | c :: _ => c.isDigit
  | [] => false

/-- Head-of-list test for the pattern `/status/(\d+)`: the literal
`/status/` followed by at least one ASCII digit. -/
def statusAt (l : List Char) : Prop :=
  "/status/".data <+: l ∧ digitHead (l.drop 8)

instance (l : List Char) : Decidable (statusAt l) :=
  inferInstanceAs (Decidable (_ ∧ _))

/-- `re.search(r"/status/(\d+)", l)`: leftmost occurrence of
`/status/` followed by a digit; returns the greedy maximal digit run. -/
def statusSearch : List Char → Option (List Char)
  | [] => none
  | c :: t =>
    if statusAt (c :: t) then some (((c :: t).drop 8).takeWhile Char.isDigit)
    else statusSearch t

/-- The canonical tweet URL `https://twitter.com/<username>/status/<digits>`
built by `clean_tweet_url`. -/
def canonicalTweet (username digits : List Char) : List Char :=
  "https://twitter.com/".data ++ username ++ "/status/".data ++ digits

/-- `clean_tweet_url` (utils.py).  Searches `/status/(\d+)` in the
lower-cased URL and in the original-case URL; when the lower-cased URL
matches and the username occurs in the lower-cased URL it rebuilds the
canonical URL from `match_original_case.group(1)` — raising
`AttributeError` when the original-case search found nothing. -/
def cleanTweetUrl (tweetUrl username : List Char) : Except PyExc (List Char) :=
  let tweetLower := lowerStr tweetUrl
  match statusSearch tweetLower with
  | some _ =>
    if strContains tweetLower username then
      match statusSearch tweetUrl with
      | some d => .ok (canonicalTweet username d)
      | none => .error .attributeError
    else .ok tweetUrl
  | none => .ok tweetUrl

/-- Python `\w` on ASCII: letters, digits and underscore. -/
def isWordChar (c : Char) : Bool :=
  c.isAlpha || c.isDigit || c = '_'

/-- `re.match(r"https://twitter\.com/([^/]+)/status/\d+", l)` from
`delete_tweet_pathnames`: anchored at the start; yields the `[^/]+`
username group.  `[^/]+` is greedy and cannot contain `/`, so the
match is deterministic. -/
def matchUsernameGroup (l : List Char) : Option (List Char) :=
  if "https://twitter.com/".data <+: l then
    let u := (l.drop 20).takeWhile (· ≠ '/')
    let rest := (l.drop 20).dropWhile (· ≠ '/')
    if u ≠ [] ∧ "/status/".data <+: rest ∧ digitHead (rest.drop 8) then some u
    else none
  else none

/-- Attempt of `re.search(r"https://twitter.com/\w+/status/(\d+)", l)`
at the current position (the `.` of the pattern is an unescaped
wildcard).  Yields the `\d+` id group. -/
def tweetIdAt (l : List Char) : Option (List Char) :=
  if ("https://twitter".data <+: l ∧ l.drop 15 ≠ [] ∧ "com/".data <+: l.drop 16) then
    let w := (l.drop 20).takeWhile isWordChar
    let rest := (l.drop 20).dropWhile isWordChar
    if w ≠ [] ∧ "/status/".data <+: rest then
      let d := (rest.drop 8).takeWhile Char.isDigit
      if d ≠ [] then some d else none
    else none
  else none

/-- The scan of `re.search(r"https://twitter.com/\w+/status/(\d+)", l)`:
tries every position left to right. -/
def searchTweetId : List Char → Option (List Char)
  | [] => none
  | c :: t =>
    match tweetIdAt (c :: t) with
    | some d => some d
    | none => searchTweetId t

/-- `delete_tweet_pathnames` (utils.py): when both the anchored
username pattern and the searched id pattern match, rebuild
`https://twitter.com/<username>/status/<id>`; otherwise return the
input unchanged. -/
def deleteTweetPathnames (tweetUrl : List Char) : List Char :=
  match matchUsernameGroup tweetUrl, searchTweetId tweetUrl with
  | some u, some d => canonicalTweet u d
  | _, _ => tweetUrl

/-- Model of Python `html.unescape` restricted to the entity spellings
that can reach it here (`&quot;`/`&quot`, `&amp;`/`&amp`, `&lt;`/`&lt`,
`&gt;`/`&gt`); on text without an ampersand it is the identity, which is
the only fact the theorems below rely on. -/
def pyUnescape : List Char → List Char
  | '&' :: 'q' :: 'u' :: 'o' :: 't' :: ';' :: t => '"' :: pyUnescape t
  | '&' :: 'q' :: 'u' :: 'o' :: 't' :: t => '"' :: pyUnescape t
  | '&' :: 'a' :: 'm' :: 'p' :: ';' :: t => '&' :: pyUnescape t
  | '&' :: 'a' :: 'm' :: 'p' :: t => '&' :: pyUnescape t
  | '&' :: 'l' :: 't' :: ';' :: t => '<' :: pyUnescape t
  | '&' :: 'l' :: 't' :: t => '<' :: pyUnescape t
  | '&' :: 'g' :: 't' :: ';' :: t => '>' :: pyUnescape t
  | '&' :: 'g' :: 't' :: t => '>' :: pyUnescape t
  | c :: t => c :: pyUnescape t
  | [] => []

/-- The lazy group `(.*?)(?=&|$)` of `check_pattern_tweet`'s regex:
consumes the shortest newline-free run up to a lookahead `&` or the end
of the string (Python `$` also matches just before one final newline).
`none` when no such stop exists. -/
def lazyToAmp : List Char → Option (List Char)
  | [] => some []
  | '&' :: _ => some []
  | '\n' :: t => if t = [] then some [] else none
  | c :: t => (lazyToAmp t).map (c :: ·)

/-- The quoting alternatives of `check_pattern_tweet`'s regex, tried in
order right after a `/status/` occurrence: `"(.*?)"`, then
`&quot;(.*?)(?=&|$)`, then `&quot%3B(.*?)(?=&|$)`.  Returns the content
of whichever group matched. -/
def cptAlts (rest : List Char) : Option (List Char) :=
  match rest with
  | '"' :: r =>
    let pre := r.takeWhile (· ≠ '\n')
    if '"' ∈ pre then some (pre.takeWhile (· ≠ '"')) else none
  | _ =>
    if "&quot;".data <+: rest then lazyToAmp (rest.drop 6)
    else if "&quot%3B".data <+: rest then lazyToAmp (rest.drop 8)
    else none

/-- Leftmost-match scan of
`re.search(r'/status/((?:"(.*?)"|&quot;(.*?)(?=&|$)|&quot%3B(.*?)(?=&|$)))', l)`. -/
def cptGo : List Char → Option (List Char)
  | [] => none
  | c :: t =>
    if "/status/".data <+: (c :: t) then
      match cptAlts ((c :: t).drop 8) with
      | some g => some g
      | none => cptGo t
    else cptGo t

/-- `check_pattern_tweet` (utils.py): extracts the quoted inner URL
after `/status/` when one of the three quoting conventions matches
(HTML-unescaping the extracted group), otherwise returns the input
unchanged.  A match with an empty group yields the empty string, as in
the source's falsy-group fallback. -/
def checkPatternTweet (tweetUrl : List Char) : List Char :=
  match cptGo tweetUrl with
  | some g => pyUnescape g
  | none => tweetUrl

/-- Python's `str.strip('"')`: removes every leading and trailing
double-quote character. -/
def stripQuotes (l : List Char) : List Char :=
  ((l.dropWhile (· = '"')).reverse.dropWhile (· = '"')).reverse

/-- ASCII hex digit test for percent-decoding. -/
def isHexDigit (c : Char) : Bool :=
  c.isDigit || ('a' ≤ c && c ≤ 'f') || ('A' ≤ c && c ≤ 'F')

/-- Value of an ASCII hex digit. -/
def hexVal (c : Char) : Nat :=
  if c.isDigit then c.toNat - '0'.toNat
  else if 'a' ≤ c then c.toNat - 'a'.toNat + 10
  else c.toNat - 'A'.toNat + 10

/-- Model of `urllib.parse.unquote` for ASCII percent-escapes: `%XX`
with hex value below 128 decodes to that character, anything else is
copied verbatim.  (Multi-byte UTF-8 escapes do not occur in any input
considered here.) -/
def pyUnquote : List Char → List Char
  | '%' :: a :: b :: t =>
    if isHexDigit a ∧ isHexDigit b ∧ 16 * hexVal a + hexVal b < 128 then
      Char.ofNat (16 * hexVal a + hexVal b) :: pyUnquote t
    else '%' :: pyUnquote (a :: b :: t)
  | c :: t => c :: pyUnquote t
  | [] => []

/-- Characters allowed in a URL scheme by `urllib.parse`. -/
def schemeChar (c : Char) : Bool :=
  c.isAlpha || c.isDigit || c = '+' || c = '-' || c = '.'

/-- Index of the first colon, if any. -/
def findColon : List Char → Option Nat
  | [] => none
  | c :: t => if c = ':' then some 0 else (findColon t).map (· + 1)

/-- Model of `urllib.parse.urlparse(url).path`: strip a valid scheme,
strip a `//netloc`, cut the path at `?`/`#`, and split trailing
`;params` out of the last path segment. -/
def pyUrlPath (url : List Char) : List Char :=
  let afterScheme :=
    match findColon url with
    | some i =>
      if 0 < i ∧ (url.take i).all schemeChar ∧ (url.head?.getD ' ').isAlpha then
        url.drop (i + 1)
      else url
    | none => url
  let afterNetloc :=
    if "//".data <+: afterScheme then
      (afterScheme.drop 2).dropWhile (fun c => c != '/' && c != '?' && c != '#')
    else afterScheme
  let p := afterNetloc.takeWhile (fun c => c != '?' && c != '#')
  if '/' ∈ p then
    let lastSeg := (p.reverse.takeWhile (· ≠ '/')).reverse
    p.take (p.length - lastSeg.length) ++ lastSeg.takeWhile (· ≠ ';')
  else p.takeWhile (· ≠ ';')

/-- Python `\s` on the ASCII range. -/
def pyIsSpace (c : Char) : Bool :=
  c = ' ' || c = '\t' || c = '\n' || c = '\x0B' || c = '\x0C' || c = '\r'

/-- Whether the list, after a run of whitespace, starts with `(` —
the `\s*\(` tail of the author regex `^(.*?)\s*\(`. -/
def parenAfterWs (l : List Char) : Bool :=
  match l.dropWhile pyIsSpace with
  | '(' :: _ => true
  | _ => false

/-- The lazy anchored match of `re.search(r"^(.*?)\s*\(", l)` from
`TwitterEmbed.embed`: extends the newline-free group one character at a
time until `\s*\(` matches at the current point; `none` when no prefix
works. -/
def auGo (acc : List Char) : List Char → Option (List Char)
  | [] => none
  | c :: t =>
    if parenAfterWs (c :: t) then some acc
    else if c = '\n' then none
    else auGo (acc ++ [c]) t

/-- `match_author.group(1) if match_author else ""` (parse.py line 148):
the author name parsed from a cleaned caption. -/
def authorFromCaption (userInfo : List Char) : List Char :=
  (auGo [] userInfo).getD []

/-- The `is_retweet` flag computed at parse.py line 152:
`author_name != author_from_tweet`. -/
def computeIsRetweet (authorName userInfo : List Char) : Bool :=
  authorName ≠ authorFromCaption userInfo

/-- Date/time fields a `strptime` directive can set. -/
inductive TField where
  | year | month | day | hour | minute | second
deriving DecidableEq, Repr

/-- One fixed-width character-range pattern: each element is an
inclusive character range that must match one input character. -/
def rangeSeq := List (Char × Char)

/-- Match a character-range sequence against a list head,
deterministically. -/
def matchRanges : List (Char × Char) → List Char → Option (List Char × List Char)
  | [], l => some ([], l)
  | _ :: _, [] => none
  | (lo, hi) :: ps, c :: t =>
    if lo ≤ c ∧ c ≤ hi then
      (matchRanges ps t).map (fun vr => (c :: vr.1, vr.2))
    else none

/-- First `some` in a list, in order. -/
def firstSome {α β : Type} (f : α → Option β) : List α → Option β
  | [] => none
  | a :: rest =>
    match f a with
    | some b => some b
    | none => firstSome f rest

/-- One `strptime` directive: the field it sets together with its
regex alternatives, in CPython `_strptime.TimeRE` order. -/
def TDir := TField × List (List (Char × Char))

/-- `%Y`: `\d\d\d\d`. -/
def patY : List (List (Char × Char)) := [[('0', '9'), ('0', '9'), ('0', '9'), ('0', '9')]]

/-- `%m`: `1[0-2]|0[1-9]|[1-9]`. -/
def patMonth : List (List (Char × Char)) :=
  [[('1', '1'), ('0', '2')], [('0', '0'), ('1', '9')], [('1', '9')]]

/-- `%d`: `3[01]|[12]\d|0[1-9]|[1-9]`. -/
def patDay : List (List (Char × Char)) :=
  [[('3', '3'), ('0', '1')], [('1', '2'), ('0', '9')], [('0', '0'), ('1', '9')], [('1', '9')]]

/-- `%H`: `2[0-3]|[0-1]\d|\d`. -/
def patHour : List (List (Char × Char)) :=
  [[('2', '2'), ('0', '3')], [('0', '1'), ('0', '9')], [('0', '9')]]

/-- `%M`: `[0-5]\d|\d`. -/
def patMinute : List (List (Char × Char)) := [[('0', '5'), ('0', '9')], [('0', '9')]]

/-- `%S`: `6[0-1]|[0-5]\d|\d`. -/
def patSecond : List (List (Char × Char)) :=
  [[('6', '6'), ('0', '1')], [('0', '5'), ('0', '9')], [('0', '9')]]

/-- Backtracking match of a directive sequence, exactly as the compiled
`strptime` regex behaves: alternatives are tried in order and a failing
continuation backtracks into the next alternative.  Returns captured
texts and the unconsumed remainder of the first successful match. -/
def matchSeq : List TDir → List Char → Option (List (TField × List Char) × List Char)
  | [], l => some ([], l)
  | (fld, alts) :: ds, l =>
    firstSome
      (fun p =>
        (matchRanges p l).bind fun vr =>
          (matchSeq ds vr.2).map fun sr => ((fld, vr.1) :: sr.1, sr.2))
      alts

/-- Numeric value of a digit string. -/
def digitsVal (l : List Char) : Nat :=
  l.foldl (fun n c => 10 * n + (c.toNat - '0'.toNat)) 0

/-- The broken-down time `strptime` assembles; defaults 1900-01-01
00:00:00. -/
structure TimeStruct where
  year : Nat := 1900
  month : Nat := 1
  day : Nat := 1
  hour : Nat := 0
  minute : Nat := 0
  second : Nat := 0
deriving DecidableEq, Repr

/-- Fold one captured directive into the time struct. -/
def applyTField (t : TimeStruct) : TField × List Char → TimeStruct
  | (.year, v) => { t with year := digitsVal v }
  | (.month, v) => { t with month := digitsVal v }
  | (.day, v) => { t with day := digitsVal v }
  | (.hour, v) => { t with hour := digitsVal v }
  | (.minute, v) => { t with minute := digitsVal v }
  | (.second, v) => { t with second := digitsVal v }

/-- Gregorian leap year. -/
def isLeapYear (y : Nat) : Bool :=
  y % 4 = 0 && (y % 100 ≠ 0 || y % 400 = 0)

/-- Days in a month. -/
def daysInMonth (y m : Nat) : Nat :=
  if m = 2 then (if isLeapYear y then 29 else 28)
  else if m = 4 ∨ m = 6 ∨ m = 9 ∨ m = 11 then 30
  else 31

/-- The range checks `datetime(...)` performs on the values `strptime`
hands it; a violation raises `ValueError`, which the caller's loop
treats as "this format failed". -/
def validDateTime (t : TimeStruct) : Bool :=
  1 ≤ t.year && t.year ≤ 9999 &&
  1 ≤ t.month && t.month ≤ 12 &&
  1 ≤ t.day && t.day ≤ daysInMonth t.year t.month &&
  t.hour ≤ 23 && t.minute ≤ 59 && t.second ≤ 59

/-- Decimal digit character. -/
def digitOf (n : Nat) : Char := Char.ofNat ('0'.toNat + n % 10)

/-- Two-digit zero-padded decimal. -/
def pad2 (n : Nat) : List Char := [digitOf (n / 10), digitOf n]

/-- Four-digit zero-padded decimal. -/
def pad4 (n : Nat) : List Char := [digitOf (n / 1000), digitOf (n / 100), digitOf (n / 10), digitOf n]

/-- `strftime("%Y/%m/%d %H:%M:%S")`. -/
def formatTime (t : TimeStruct) : List Char :=
  pad4 t.year ++ '/' :: pad2 t.month ++ '/' :: pad2 t.day ++
    ' ' :: pad2 t.hour ++ ':' :: pad2 t.minute ++ ':' :: pad2 t.second

/-- `datetime.strptime(timestamp, fmt)` followed by
`strftime("%Y/%m/%d %H:%M:%S")` for one format: the regex must consume
the whole string and the assembled date must be valid, otherwise this
format raises `ValueError` and the caller moves on. -/
def tryTimeFormat (fmt : List TDir) (s : List Char) : Option (List Char) :=
  match matchSeq fmt s with
  | some (vals, rest) =>
    if rest = [] then
      let t := vals.foldl applyTField {}
      if validDateTime t then some (formatTime t) else none
    else none
  | none => none

/-- The format list of `timestamp_parser` (utils.py):
`%Y`, `%Y%m`, `%Y%m%d`, `%Y%m%d%H`, `%Y%m%d%H%M`, `%Y%m%d%H%M%S`. -/
def timestampFormats : List (List TDir) :=
  [[(.year, patY)],
   [(.year, patY), (.month, patMonth)],
   [(.year, patY), (.month, patMonth), (.day, patDay)],
   [(.year, patY), (.month, patMonth), (.day, patDay), (.hour, patHour)],
   [(.year, patY), (.month, patMonth), (.day, patDay), (.hour, patHour), (.minute, patMinute)],
   [(.year, patY), (.month, patMonth), (.day, patDay), (.hour, patHour), (.minute, patMinute),
    (.second, patSecond)]]

/-- `timestamp_parser` (utils.py): tries the formats in order, returns
the first successful parse formatted as `%Y/%m/%d %H:%M:%S`, `None`
when every format fails. -/
def timestampParser (timestamp : List Char) : Option (List Char) :=
  firstSome (fun fmt => tryTimeFormat fmt timestamp) timestampFormats

/-- One raw CDX row as a dict: each key either present with a string
value or absent.  These are the only keys `_process_response` reads. -/
structure RawRecord where
  urlkey : Option (List Char) := none
  timestamp : Option (List Char) := none
  original : Option (List Char) := none
  mimetype : Option (List Char) := none
  statuscode : Option (List Char) := none
  digest : Option (List Char) := none
  length : Option (List Char) := none
deriving DecidableEq, Repr

/-- The tweet-record dict built by `WaybackTweetsParser._process_response`. -/
structure TweetRecord where
  available_tweet_text : Option (List Char)
  available_tweet_is_RT : Option Bool
  available_tweet_info : Option (List Char)
  archived_urlkey : List Char
  archived_timestamp : List Char
  parsed_archived_timestamp : Option (List Char)
  archived_tweet_url : List Char
  parsed_archived_tweet_url : List Char
  original_tweet_url : List Char
  parsed_tweet_url : List Char
  archived_mimetype : List Char
  archived_statuscode : List Char
  archived_digest : List Char
  archived_length : List Char
deriving DecidableEq, Repr

/-- Outcome of processing one record: a `None` return, a record, or an
exception escaping `_process_response` (absorbed at the per-record
boundary in `parse`). -/
inductive ProcOutcome where
  | dropped
  | emitted (rec : TweetRecord)
  | raised (e : PyExc)
deriving DecidableEq, Repr

/-- The network-bound `TwitterEmbed.embed` as an external oracle: given
the tweet URL it may return the `(tweet_contents, is_retweet_flags,
user_infos)` triple or `None`. -/
def EmbedOracle := List Char → Option (List (List Char) × List Bool × List (List Char))

/-- `self.path_urls.add(path)`: set insertion on the deduplication set. -/
def insertPath (st : List (List Char)) (p : List Char) : List (List Char) :=
  if p ∈ st then st else p :: st

/-- The embed block of `_process_response` (parse.py lines 245-252):
when the encoded tweet URL looks like a single-status URL, consult the
embed service; a truthy result is indexed at `[0]` of each list, which
raises `IndexError` on empty lists. -/
def embedFields (oracle : EmbedOracle) (encodedTweet : List Char) :
    Except PyExc (Option (List Char) × Option Bool × Option (List Char)) :=
  if isTweetUrl encodedTweet then
    match oracle encodedTweet with
    | some (texts, flags, infos) =>
      match texts, flags, infos with
      | t0 :: _, f0 :: _, i0 :: _ =>
        .ok (some (semicolonParser t0), some f0, some (semicolonParser i0))
      | _, _, _ => .error .indexError
    | none => .ok (none, none, none)
  else .ok (none, none, none)

/-- `WaybackTweetsParser._process_response` (parse.py lines 186-271),
with the mutable `path_urls` set threaded explicitly: the returned set
reflects every insertion performed before the function returned or
raised. -/
def cdxProcess (oracle : EmbedOracle) (username : List Char)
    (pathUrls : List (List Char)) (response : RawRecord) :
    List (List Char) × ProcOutcome :=
  match response.original with
  | none => (pathUrls, .dropped)
  | some original =>
  match response.statuscode with
  | none => (pathUrls, .dropped)
  | some sc =>
  if sc ≠ "200".data then (pathUrls, .dropped)
  else if pyUrlPath original ∈ pathUrls then (pathUrls, .dropped)
  else
    let tweetRemoveChar := (pyUnquote original).filter (· ≠ '’')
    let cleanedTweet := stripQuotes (checkPatternTweet tweetRemoveChar)
    match response.timestamp with
    | none => (pathUrls, .raised .keyError)
    | some ts =>
    let waybackMachineUrl := "https://web.archive.org/web/".data ++ ts ++ '/' :: original
    match cleanTweetUrl cleanedTweet username with
    | .error e => (pathUrls, .raised e)
    | .ok cleanedUrl =>
    let originalTweet0 := deleteTweetPathnames cleanedUrl
    let originalTweet :=
      if checkDoubleStatus waybackMachineUrl originalTweet0 then
        deleteTweetPathnames ("https://twitter.com".data ++ originalTweet0)
      else if ¬ strContains originalTweet0 "://".data then
        deleteTweetPathnames ("https://".data ++ originalTweet0)
      else originalTweet0
    let parsedWaybackMachineUrl :=
      "https://web.archive.org/web/".data ++ ts ++ '/' :: originalTweet
    let encodedArchivedTweet := checkUrlScheme (semicolonParser waybackMachineUrl)
    let encodedParsedArchivedTweet := checkUrlScheme (semicolonParser parsedWaybackMachineUrl)
    let encodedTweet := checkUrlScheme (semicolonParser original)
    let encodedParsedTweet := checkUrlScheme (semicolonParser originalTweet)
    let pathUrls' := insertPath pathUrls (pyUrlPath encodedParsedTweet)
    match embedFields oracle encodedTweet with
    | .error e => (pathUrls', .raised e)
    | .ok (availText, availIsRT, availInfo) =>
    match response.urlkey with
    | none => (pathUrls', .raised .keyError)
    | some uk =>
    match response.mimetype with
    | none => (pathUrls', .raised .keyError)
    | some mt =>
    match response.digest with
    | none => (pathUrls', .raised .keyError)
    | some dg =>
    match response.length with
    | none => (pathUrls', .raised .keyError)
    | some ln =>
    (pathUrls',
      .emitted
        { available_tweet_text := availText
          available_tweet_is_RT := availIsRT
          available_tweet_info := availInfo
          archived_urlkey := uk
          archived_timestamp := ts
          parsed_archived_timestamp := timestampParser ts
          archived_tweet_url := encodedArchivedTweet
          parsed_archived_tweet_url := encodedParsedArchivedTweet
          original_tweet_url := encodedTweet
          parsed_tweet_url := encodedParsedTweet
          archived_mimetype := mt
          archived_statuscode := sc
          archived_digest := dg
          archived_length := ln })

/-- `WaybackTweetsParser.parse`: one assembler instance's run over a
raw-record sequence, yielding the emitted records; `None` results and
absorbed exceptions produce nothing. -/
def runCdx (oracle : EmbedOracle) (username : List Char) (pathUrls : List (List Char)) :
    List RawRecord → List TweetRecord
  | [] => []
  | r :: rs =>
    match cdxProcess oracle username pathUrls r with
    | (st', .emitted rec) => rec :: runCdx oracle username st' rs
    | (st', _) => runCdx oracle username st' rs

/-- One raw Common Crawl record as a dict. -/
structure CCRawRecord where
  url : Option (List Char) := none
  timestamp : Option (List Char) := none
  mimetype : Option (List Char) := none
  statuscode : Option (List Char) := none
  digest : Option (List Char) := none
  length : Option (List Char) := none
deriving DecidableEq, Repr

/-- The tweet-record dict built by
`CommonCrawlTweetsParser._process_response`. -/
structure CCTweetRecord where
  available_tweet_text : Option (List Char)
  available_tweet_is_RT : Option Bool
  available_tweet_info : Option (List Char)
  common_crawl_url : List Char
  common_crawl_timestamp : List Char
  parsed_common_crawl_timestamp : Option (List Char)
  common_crawl_tweet_url : List Char
  parsed_common_crawl_tweet_url : List Char
  original_tweet_url : List Char
  parsed_tweet_url : List Char
  common_crawl_mimetype : List Char
  common_crawl_statuscode : List Char
  common_crawl_digest : List Char
  common_crawl_length : List Char
deriving DecidableEq, Repr

/-- `CommonCrawlTweetsParser._process_response` (parse.py lines
304-370).  There is no status gate and no deduplication set; the only
failure modes are the `KeyError`s on the two required keys, the
`AttributeError` inside `clean_tweet_url` and the embed `IndexError`. -/
def ccProcess (oracle : EmbedOracle) (username : List Char) (response : CCRawRecord) :
    Except PyExc CCTweetRecord :=
  match response.url with
  | none => .error .keyError
  | some url =>
  let tweetRemoveChar := (pyUnquote url).filter (· ≠ '’')
  let cleanedTweet := stripQuotes (checkPatternTweet tweetRemoveChar)
  match response.timestamp with
  | none => .error .keyError
  | some ts =>
  let commonCrawlUrl := "https://commoncrawl.org/".data ++ ts ++ '/' :: url
  match cleanTweetUrl cleanedTweet username with
  | .error e => .error e
  | .ok cleanedUrl =>
  let originalTweet0 := deleteTweetPathnames cleanedUrl
  let originalTweet :=
    if checkDoubleStatus commonCrawlUrl originalTweet0 then
      deleteTweetPathnames ("https://twitter.com".data ++ originalTweet0)
    else if ¬ strContains originalTweet0 "://".data then
      deleteTweetPathnames ("https://".data ++ originalTweet0)
    else originalTweet0
  let parsedCommonCrawlUrl := "https://commoncrawl.org/".data ++ ts ++ '/' :: originalTweet
  let encodedCommonCrawlUrl := checkUrlScheme (semicolonParser commonCrawlUrl)
  let encodedParsedCommonCrawlUrl := checkUrlScheme (semicolonParser parsedCommonCrawlUrl)
  let encodedTweet := checkUrlScheme (semicolonParser url)
  let encodedParsedTweet := checkUrlScheme (semicolonParser originalTweet)
  match embedFields oracle encodedTweet with
  | .error e => .error e
  | .ok (availText, availIsRT, availInfo) =>
  .ok
    { available_tweet_text := availText
      available_tweet_is_RT := availIsRT
      available_tweet_info := availInfo
      common_crawl_url := url
      common_crawl_timestamp := ts
      parsed_common_crawl_timestamp := timestampParser ts
      common_crawl_tweet_url := encodedCommonCrawlUrl
      parsed_common_crawl_tweet_url := encodedParsedCommonCrawlUrl
      original_tweet_url := encodedTweet
      parsed_tweet_url := encodedParsedTweet
      common_crawl_mimetype := response.mimetype.getD []
      common_crawl_statuscode := response.statuscode.getD []
      common_crawl_digest := response.digest.getD []
      common_crawl_length := response.length.getD [] }

/-- `CommonCrawlTweetsParser.parse`: yields one record per raw record,
skipping only those whose processing raised. -/
def runCC (oracle : EmbedOracle) (username : List Char) :
    List CCRawRecord → List CCTweetRecord
  | [] => []
  | r :: rs =>
    match ccProcess oracle username r with
    | .ok rec => rec :: runCC oracle username rs
    | .error _ => runCC oracle username rs

/-- The oracle standing for an embed service that never resolves
(every call returns `None`), the simplest well-formed collaborator. -/
def oracleNone : EmbedOracle := fun _ => none

/-- Projection of an outcome to its emitted record, if any. -/
def emittedRec : ProcOutcome → Option TweetRecord
  | .emitted rec => some rec
  | _ => none

/-- A complete CDX row for `https://x.com/alice/status/123`. -/
def rcdxA : RawRecord :=
  { urlkey := some "k1".data, timestamp := some "20210101000000".data,
    original := some "https://x.com/alice/status/123".data,
    mimetype := some "text/html".data, statuscode := some "200".data,
    digest := some "d1".data, length := some "100".data }

/-- A complete CDX row for the same tweet under the encoding variant
`https://x.com/alice/status/123/photo/1`: same canonical path as
`rcdxA`, different raw path. -/
def rcdxB : RawRecord :=
  { urlkey := some "k2".data, timestamp := some "20220202000000".data,
    original := some "https://x.com/alice/status/123/photo/1".data,
    mimetype := some "text/html".data, statuscode := some "200".data,
    digest := some "d2".data, length := some "200".data }

/-- `rcdxA` with the `digest` key absent. -/
def rcdxNoDigest : RawRecord :=
  { urlkey := some "k1".data, timestamp := some "20210101000000".data,
    original := some "https://x.com/alice/status/123".data,
    mimetype := some "text/html".data, statuscode := some "200".data,
    digest := none, length := some "100".data }

/-- A CDX row with a non-200 status code. -/
def rcdx404 : RawRecord :=
  { urlkey := some "k3".data, timestamp := some "20210101000000".data,
    original := some "https://x.com/alice/status/456".data,
    mimetype := some "text/html".data, statuscode := some "404".data,
    digest := some "d3".data, length := some "50".data }

/-- The record `cdxProcess` emits for `rcdxA` from an empty
deduplication set with the never-resolving embed oracle. -/
def recA : TweetRecord :=
  { available_tweet_text := none
    available_tweet_is_RT := none
    available_tweet_info := none
    archived_urlkey := "k1".data
    archived_timestamp := "20210101000000".data
    parsed_archived_timestamp := some "2021/01/01 00:00:00".data
    archived_tweet_url :=
      "https://web.archive.org/web/20210101000000/https://x.com/alice/status/123".data
    parsed_archived_tweet_url :=
      "https://web.archive.org/web/20210101000000/https://twitter.com/alice/status/123".data
    original_tweet_url := "https://x.com/alice/status/123".data
    parsed_tweet_url := "https://twitter.com/alice/status/123".data
    archived_mimetype := "text/html".data
    archived_statuscode := "200".data
    archived_digest := "d1".data
    archived_length := "100".data }

/-- A minimal Common Crawl row for `https://x.com/alice/status/123`. -/
def ccAlice : CCRawRecord :=
  { url := some "https://x.com/alice/status/123".data,
    timestamp := some "20210101000000".data }

/-- Spec-side notion "the username appears in the URL
case-insensitively". -/
def caseInsensitiveContains (hay needle : List Char) : Prop :=
  strContains (lowerStr hay) (lowerStr needle)

instance (hay needle : List Char) : Decidable (caseInsensitiveContains hay needle) :=
  inferInstanceAs (Decidable (strContains _ _))

/-- Spec-side reading of C9's "the caption substring preceding the
first parenthesis", taken literally. -/
def beforeParen (l : List Char) : List Char := l.takeWhile (· ≠ '(')

/-- Right-strip of Python whitespace. -/
def rstripWs (l : List Char) : List Char := (l.reverse.dropWhile pyIsSpace).reverse

/-- Spec-side closed form of the author parsed from a caption: the
substring preceding the first parenthesis with the whitespace
immediately before that parenthesis excluded; no value when there is
no parenthesis or when a newline precedes it (the anchored
single-line pattern cannot match then). -/
def specAuthorOpt (l : List Char) : Option (List Char) :=
  if '(' ∈ l then
    if '\n' ∈ rstripWs (beforeParen l) then none
    else some (rstripWs (beforeParen l))
  else none

/-- The parsed-author string the amended C9 compares against:
`specAuthorOpt` with the empty string for a failed pattern. -/
def specAuthor (l : List Char) : List Char := (specAuthorOpt l).getD []

end WaybackTweets

namespace WaybackTweets

theorem mem_insertPath (st : List (List Char)) (p : List Char) : p ∈ insertPath st p := by
  unfold insertPath
  split
  · assumption
  · exact List.mem_cons_self p st

theorem cdxProcess_dup (oracle : EmbedOracle) (username : List Char)
    (st : List (List Char)) (r : RawRecord) (o : List Char)
    (h1 : r.original = some o) (h2 : r.statuscode = some "200".data)
    (h3 : pyUrlPath o ∈ st) :
    cdxProcess oracle username st r = (st, .dropped) := by
  unfold cdxProcess
  rw [h1, h2]
  simp [h3]

theorem cdxProcess_emitted_mem (oracle : EmbedOracle) (username : List Char)
    (st : List (List Char)) (r : RawRecord) (st' : List (List Char)) (rec : TweetRecord)
    (h : cdxProcess oracle username st r = (st', .emitted rec)) :
    pyUrlPath rec.parsed_tweet_url ∈ st' := by
  simp only [cdxProcess] at h
  repeat' split at h
  all_goals obtain ⟨h1, h2⟩ := Prod.mk.injEq .. |>.mp h
  all_goals cases h2
  all_goals subst h1
  all_goals exact mem_insertPath ..

theorem runCC_append (oracle : EmbedOracle) (username : List Char)
    (rs₁ rs₂ : List CCRawRecord) :
    runCC oracle username (rs₁ ++ rs₂) =
      runCC oracle username rs₁ ++ runCC oracle username rs₂ := by
  induction rs₁ with
  | nil => rfl
  | cons r rs ih =>
    simp only [List.cons_append, runCC]
    cases ccProcess oracle username r <;> simp [ih]

/-- C1: the spec claims CDX deduplication is detected "by checking the
path component of the final canonicalized candidate" and that two raw
records with equal canonicalized paths yield at most one record.  The
code instead checks the path of the *raw* `original` URL
(parse.py line 203) while inserting the path of the canonicalized
candidate (line 237): the two rows `rcdxA` and `rcdxB` canonicalize to
the same path `/alice/status/123`, yet both are emitted. -/
theorem C1_counterexample :
    (runCdx oracleNone "alice".data [] [rcdxA, rcdxB]).map
        (fun rec => pyUrlPath rec.parsed_tweet_url) =
      ["/alice/status/123".data, "/alice/status/123".data] ∧
    rcdxA ≠ rcdxB := by decide

/-- C1 (amended): the duplicate check parses the path component of the
raw `original` URL, not of the canonicalized candidate, and tests it
against the set of canonical paths inserted for previously accepted
records.  Hence when a second record's *raw* path equals an accepted
record's canonical path, the second record is dropped (no record, set
unchanged, no further processing), and only the first is emitted. -/
theorem C1_amended (oracle : EmbedOracle) (username : List Char)
    (st₀ st₁ : List (List Char)) (r₁ r₂ : RawRecord) (rec₁ : TweetRecord)
    (o₂ : List Char)
    (h1 : cdxProcess oracle username st₀ r₁ = (st₁, .emitted rec₁))
    (h2 : r₂.original = some o₂)
    (h3 : r₂.statuscode = some "200".data)
    (h4 : pyUrlPath o₂ = pyUrlPath rec₁.parsed_tweet_url) :
    cdxProcess oracle username st₁ r₂ = (st₁, .dropped) := by
  have hm := cdxProcess_emitted_mem oracle username st₀ r₁ st₁ rec₁ h1
  exact cdxProcess_dup oracle username st₁ r₂ o₂ h2 h3 (h4 ▸ hm)

/-- C1 (witness): processing `rcdxA` twice drops the second copy. -/
theorem C1_amended_witness :
    cdxProcess oracleNone "alice".data ["/alice/status/123".data] rcdxA =
      (["/alice/status/123".data], .dropped) :=
  C1_amended oracleNone "alice".data [] ["/alice/status/123".data] rcdxA rcdxA
    recA "https://x.com/alice/status/123".data (by decide) (by decide) (by decide)
    (by decide)

/-- C2: the claimed end-to-end record has its URLs attached to the
wrong fields: for the record `rcdxA` the emitted `original_tweet_url`
is the escaped raw URL `https://x.com/alice/status/123`, not the
claimed `https://twitter.com/alice/status/123` (which lands in
`parsed_tweet_url` instead). -/
theorem C2_counterexample :
    (emittedRec (cdxProcess oracleNone "alice".data [] rcdxA).2).map
        TweetRecord.original_tweet_url =
      some "https://x.com/alice/status/123".data ∧
    "https://x.com/alice/status/123".data ≠
      "https://twitter.com/alice/status/123".data := by decide

/-- C2 (amended): a CDX record with status code `"200"`, original URL
`https://x.com/alice/status/123` and timestamp `20210101000000`, with
no matching prior path, yields a TweetRecord whose `parsed_tweet_url`
is `https://twitter.com/alice/status/123`, whose `original_tweet_url`
is the raw `https://x.com/alice/status/123`, and whose
`archived_tweet_url` is
`https://web.archive.org/web/20210101000000/https://x.com/alice/status/123`. -/
theorem C2_amended :
    (emittedRec (cdxProcess oracleNone "alice".data [] rcdxA).2).map
        TweetRecord.parsed_tweet_url =
      some "https://twitter.com/alice/status/123".data ∧
    (emittedRec (cdxProcess oracleNone "alice".data [] rcdxA).2).map
        TweetRecord.original_tweet_url =
      some "https://x.com/alice/status/123".data ∧
    (emittedRec (cdxProcess oracleNone "alice".data [] rcdxA).2).map
        TweetRecord.archived_tweet_url =
      some "https://web.archive.org/web/20210101000000/https://x.com/alice/status/123".data := by
  decide

/-- C3: the Common-Crawl assembler performs no deduplication at all —
it has no `DeduplicationSet` — so running it on the same raw record
twice emits two records with the same normalized path, violating the
claimed invariant. -/
theorem C3_counterexample :
    (runCC oracleNone "alice".data [ccAlice, ccAlice]).map
        (fun rec => pyUrlPath rec.parsed_tweet_url) =
      ["/alice/status/123".data, "/alice/status/123".data] := by decide

/-- C3 (amended): only the CDX variant maintains a deduplication set —
every path of an emitted CDX record is a member of the resulting set —
while the Common-Crawl variant is stateless: processing a concatenated
sequence yields the concatenation of the independent runs, so nothing
prevents duplicate normalized paths there. -/
theorem C3_amended :
    (∀ (oracle : EmbedOracle) (username : List Char) (st : List (List Char))
        (r : RawRecord) (st' : List (List Char)) (rec : TweetRecord),
        cdxProcess oracle username st r = (st', .emitted rec) →
        pyUrlPath rec.parsed_tweet_url ∈ st') ∧
    (∀ (oracle : EmbedOracle) (username : List Char) (rs₁ rs₂ : List CCRawRecord),
        runCC oracle username (rs₁ ++ rs₂) =
          runCC oracle username rs₁ ++ runCC oracle username rs₂) :=
  ⟨cdxProcess_emitted_mem, runCC_append⟩

/-- C3 (witness): the record emitted for `rcdxA` has its canonical path
in the final deduplication set. -/
theorem C3_amended_witness :
    pyUrlPath recA.parsed_tweet_url ∈ ["/alice/status/123".data] :=
  C3_amended.1 oracleNone "alice".data [] rcdxA ["/alice/status/123".data] recA
    (by decide)

/-- C6: `timestamp_parser` tries `%Y`, `%Y%m`, `%Y%m%d`, `%Y%m%d%H`,
`%Y%m%d%H%M`, `%Y%m%d%H%M%S` in that order (the order of
`timestampFormats`, first success winning), and on the three probe
inputs behaves exactly as claimed, never fatally. -/
theorem C6_timestamp_formats :
    timestampParser "2021".data = some "2021/01/01 00:00:00".data ∧
    timestampParser "202103151230".data = some "2021/03/15 12:30:00".data ∧
    timestampParser "not-a-date".data = none := by decide

/-- C8: a record missing a required field that is only read *after*
the deduplication insertion (here `digest`) does not return absent: it
raises `KeyError`, and the deduplication set retains the inserted
path — both halves of the claim fail on `rcdxNoDigest`. -/
theorem C8_counterexample :
    cdxProcess oracleNone "alice".data [] rcdxNoDigest =
      (["/alice/status/123".data], .raised .keyError) ∧
    ProcOutcome.raised .keyError ≠ ProcOutcome.dropped ∧
    ["/alice/status/123".data] ≠ ([] : List (List Char)) := by decide

/-- C8 (amended): the per-record processing returns absent with the
deduplication set untouched exactly for the checked gates — a missing
`original`, a missing `statuscode`, or a status code other than
`"200"`; records failing on the other required fields raise a
`KeyError` instead, and when the missing field is read after the
insertion the set keeps the new path. -/
theorem C8_amended (oracle : EmbedOracle) (username : List Char)
    (st : List (List Char)) (r : RawRecord)
    (h : r.original = none ∨ ∀ sc, r.statuscode = some sc → sc ≠ "200".data) :
    cdxProcess oracle username st r = (st, .dropped) := by
  unfold cdxProcess
  rcases ho : r.original with _ | o
  · rfl
  rcases hs : r.statuscode with _ | sc
  · rfl
  have hsc : sc ≠ "200".data := by
    rcases h with h | h
    · rw [ho] at h; cases h
    · exact h sc hs
  simp [hsc]

/-- C8 (witness): a `404` record is dropped with the set unchanged. -/
theorem C8_amended_witness :
    cdxProcess oracleNone "alice".data [] rcdx404 = ([], .dropped) :=
  C8_amended oracleNone "alice".data [] rcdx404
    (Or.inr (fun sc hsc => by
      rw [show rcdx404.statuscode = some "404".data from rfl] at hsc
      cases hsc
      decide))

/-- C5: `clean_tweet_url` is not total: when the `/status/` segment
matches only after lower-casing (here `/STATUS/123`) while the
username occurs, `match_original_case` is `None` and `.group(1)`
raises `AttributeError`. -/
theorem C5_counterexample :
    cleanTweetUrl "https://x.com/alice/STATUS/123".data "alice".data =
      .error .attributeError := by decide

/-- C5 (amended): every listed canonicalizer operation is a pure
function over strings, and all are total except `clean_tweet_url`,
which raises `AttributeError` exactly when the lower-cased URL
contains `/status/<digits>` and the username occurs in it while the
original-case URL has no `/status/<digits>` match. -/
theorem C5_amended (url username : List Char) :
    cleanTweetUrl url username = .error .attributeError ↔
      ((statusSearch (lowerStr url)).isSome ∧
        strContains (lowerStr url) username ∧ statusSearch url = none) := by
  unfold cleanTweetUrl
  cases h1 : statusSearch (lowerStr url) with
  | none => simp [h1]
  | some d =>
    by_cases h2 : strContains (lowerStr url) username
    · cases h3 : statusSearch url <;> simp [h1, h2, h3]
    · simp [h1, h2]

theorem rstripWs_eq_nil_iff (l : List Char) :
    rstripWs l = [] ↔ ∀ c ∈ l, pyIsSpace c := by
  unfold rstripWs
  rw [List.reverse_eq_nil_iff, List.dropWhile_eq_nil_iff]
  constructor
  · intro h c hc
    exact h c (List.mem_reverse.mpr hc)
  · intro h c hc
    exact h c (List.mem_reverse.mp hc)

theorem rstripWs_cons (c : Char) (q : List Char)
    (h : rstripWs q ≠ [] ∨ pyIsSpace c = false) :
    rstripWs (c :: q) = c :: rstripWs q := by
  unfold rstripWs at *
  have hrev : (c :: q).reverse = q.reverse ++ [c] := by simp
  rw [hrev, List.dropWhile_append]
  rcases hq : q.reverse.dropWhile pyIsSpace with _ | ⟨x, xs⟩
  · have hc : pyIsSpace c = false := by
      rcases h with h | h
      · rw [hq] at h; simp at h
      · exact h
    simp [hq, List.dropWhile_cons, hc]
  · simp [hq]

theorem parenAfterWs_cons_space (c : Char) (t : List Char) (h : pyIsSpace c = true) :
    parenAfterWs (c :: t) = parenAfterWs t := by
  unfold parenAfterWs
  rw [List.dropWhile_cons, if_pos h]

theorem parenAfterWs_cons_nonspace (c : Char) (t : List Char) (h : pyIsSpace c = false) :
    parenAfterWs (c :: t) = decide (c = '(') := by
  unfold parenAfterWs
  rw [List.dropWhile_cons, if_neg (by simp [h])]
  by_cases hc : c = '('
  · subst hc; simp
  · rcases c with ⟨n⟩
    simp [hc]

theorem takeWhile_all_stop (q : Char → Bool) (xs : List Char) (y : Char) (ys : List Char)
    (hxs : ∀ x ∈ xs, q x = true) (hy : q y = false) :
    (xs ++ y :: ys).takeWhile q = xs := by
  induction xs with
  | nil => simp [List.takeWhile_cons, hy]
  | cons x xs ih =>
    have hx := hxs x (by simp)
    simp only [List.cons_append, List.takeWhile_cons, hx]
    simp only [if_true]
    rw [ih (fun a ha => hxs a (by simp [ha]))]

theorem space_ne_paren {c : Char} (h : pyIsSpace c = true) : c ≠ '(' := by
  intro he
  subst he
  simp [pyIsSpace] at h

theorem beforeParen_cons (c : Char) (t : List Char) (h : c ≠ '(') :
    beforeParen (c :: t) = c :: beforeParen t := by
  unfold beforeParen
  rw [List.takeWhile_cons, if_pos (by simp [h])]

theorem beforeParen_paren (t : List Char) : beforeParen ('(' :: t) = [] := by
  unfold beforeParen
  rw [List.takeWhile_cons, if_neg (by simp)]

theorem parenAfterWs_spec (l : List Char) (h : parenAfterWs l = true) :
    specAuthorOpt l = some [] := by
  unfold parenAfterWs at h
  rcases hdw : l.dropWhile pyIsSpace with _ | ⟨c, rest⟩
  · rw [hdw] at h; simp at h
  rw [hdw] at h
  have hc : c = '(' := by
    rcases c with ⟨n⟩
    by_contra hne
    simp [hne] at h
  subst hc
  have hsplit : l = l.takeWhile pyIsSpace ++ '(' :: rest := by
    conv_lhs => rw [← List.takeWhile_append_dropWhile (p := pyIsSpace) (l := l)]
    rw [hdw]
  have hallsp : ∀ x ∈ l.takeWhile pyIsSpace, pyIsSpace x = true :=
    fun x hx => List.mem_takeWhile_imp hx
  have hbp : beforeParen l = l.takeWhile pyIsSpace := by
    unfold beforeParen
    conv_lhs => rw [hsplit]
    exact takeWhile_all_stop _ _ _ _
      (fun x hx => by
        have := hallsp x hx
        simp [space_ne_paren this])
      (by simp)
  have hmem : '(' ∈ l := by rw [hsplit]; simp
  have hnil : rstripWs (beforeParen l) = [] := by
    rw [hbp, rstripWs_eq_nil_iff]
    exact hallsp
  unfold specAuthorOpt
  rw [if_pos hmem, hnil, if_neg (by simp)]

theorem all_space_paren (l : List Char) (hmem : '(' ∈ l)
    (hsp : ∀ c ∈ beforeParen l, pyIsSpace c = true) :
    parenAfterWs l = true := by
  induction l with
  | nil => cases hmem
  | cons c t ih =>
    by_cases hc : c = '('
    · subst hc
      rw [parenAfterWs_cons_nonspace _ _ (by simp [pyIsSpace])]
      simp
    · rw [beforeParen_cons c t hc] at hsp
      have hcsp : pyIsSpace c = true := hsp c (by simp)
      rw [parenAfterWs_cons_space _ _ hcsp]
      apply ih
      · rw [List.mem_cons] at hmem
        rcases hmem with hm | hm
        · exact absurd hm.symm hc
        · exact hm
      · intro x hx
        exact hsp x (by simp [hx])

theorem auGo_eq (l : List Char) : ∀ acc, auGo acc l = (specAuthorOpt l).map (acc ++ ·) := by
  induction l with
  | nil =>
    intro acc
    unfold auGo specAuthorOpt
    simp
  | cons c t ih =>
    intro acc
    unfold auGo
    by_cases hpaw : parenAfterWs (c :: t) = true
    · rw [if_pos hpaw, parenAfterWs_spec _ hpaw]
      simp
    · rw [if_neg hpaw]
      have hpawf : parenAfterWs (c :: t) = false := by
        rcases hb : parenAfterWs (c :: t)
        · rfl
        · exact absurd hb hpaw
      have hcne : c ≠ '(' := by
        intro he
        subst he
        rw [parenAfterWs_cons_nonspace _ _ (by simp [pyIsSpace])] at hpawf
        simp at hpawf
      by_cases hcn : c = '\n'
      · subst hcn
        rw [if_pos rfl]
        by_cases hmem : '(' ∈ '\n' :: t
        · have hbp : beforeParen ('\n' :: t) = '\n' :: beforeParen t :=
            beforeParen_cons _ _ hcne
          have hq : rstripWs (beforeParen t) ≠ [] := by
            intro hq0
            apply absurd (all_space_paren ('\n' :: t) hmem ?_) (by rw [hpawf]; simp)
            intro x hx
            rw [hbp, List.mem_cons] at hx
            rcases hx with hx | hx
            · subst hx; rfl
            · exact (rstripWs_eq_nil_iff _).mp hq0 x hx
          have hnlmem : '\n' ∈ rstripWs (beforeParen ('\n' :: t)) := by
            rw [hbp, rstripWs_cons _ _ (Or.inl hq)]
            simp
          unfold specAuthorOpt
          rw [if_pos hmem, if_pos hnlmem]
          simp
        · unfold specAuthorOpt
          rw [if_neg hmem]
          simp
      · rw [if_neg hcn]
        rw [ih (acc ++ [c])]
        have hbp : beforeParen (c :: t) = c :: beforeParen t := beforeParen_cons _ _ hcne
        have hkey : specAuthorOpt (c :: t) = (specAuthorOpt t).map (c :: ·) := by
          by_cases hmem : '(' ∈ t
          · have hmem' : '(' ∈ c :: t := by simp [hmem]
            have hrs : rstripWs (beforeParen (c :: t)) = c :: rstripWs (beforeParen t) := by
              rw [hbp]
              apply rstripWs_cons
              rcases hsp : pyIsSpace c with _ | _
              · exact Or.inr rfl
              · left
                intro hq0
                apply absurd (all_space_paren (c :: t) hmem' ?_) (by rw [hpawf]; simp)
                intro x hx
                rw [hbp, List.mem_cons] at hx
                rcases hx with hx | hx
                · subst hx; exact hsp
                · exact (rstripWs_eq_nil_iff _).mp hq0 x hx
            unfold specAuthorOpt
            rw [if_pos hmem', if_pos hmem, hrs]
            have hnl : ('\n' ∈ c :: rstripWs (beforeParen t)) ↔
                ('\n' ∈ rstripWs (beforeParen t)) := by
              rw [List.mem_cons]
              constructor
              · intro hx
                rcases hx with hx | hx
                · exact absurd hx.symm hcn
                · assumption
              · intro hx
                exact Or.inr hx
            by_cases hnlt : '\n' ∈ rstripWs (beforeParen t)
            · rw [if_pos (hnl.mpr hnlt), if_pos hnlt]
              simp
            · rw [if_neg (fun hx => hnlt (hnl.mp hx)), if_neg hnlt]
              simp
          · have hmem' : '(' ∉ c :: t := by
              rw [List.mem_cons]
              intro hx
              rcases hx with hx | hx
              · exact hcne hx.symm
              · exact hmem hx
            unfold specAuthorOpt
            rw [if_neg hmem', if_neg hmem]
            simp
        rw [hkey]
        rcases specAuthorOpt t with _ | p
        · simp
        · simp

/-- C9: the claim's parsed author is "the caption substring preceding
the first parenthesis", taken literally — but the source pattern
`^(.*?)\s*\(` also strips the whitespace before the parenthesis: for
the caption `Alice (@alice)` and declared author `Alice` the code
computes `is_retweet = false` although the literal substring
`"Alice "` differs from the author name. -/
theorem C9_counterexample :
    computeIsRetweet "Alice".data "Alice (@alice)".data = false ∧
    "Alice".data ≠ beforeParen "Alice (@alice)".data := by decide

/-- C9 (amended): `is_retweet` is true iff the declared embed author
name differs from the parsed author, where the parsed author is the
caption substring preceding the first parenthesis with the whitespace
immediately before that parenthesis excluded, and is empty when the
parenthesis pattern does not match (no parenthesis at all, or a
newline inside that substring). -/
theorem C9_amended (authorName userInfo : List Char) :
    computeIsRetweet authorName userInfo = true ↔ authorName ≠ specAuthor userInfo := by
  unfold computeIsRetweet authorFromCaption specAuthor
  rw [auGo_eq userInfo []]
  rcases specAuthorOpt userInfo with _ | p
  · simp
  · simp

theorem toLower_digit (c : Char) (h : c.isDigit = true) : c.toLower = c := by
  simp only [Char.isDigit, decide_eq_true_eq, Bool.and_eq_true] at h
  obtain ⟨h1, h2⟩ := h
  simp only [Char.toLower, Char.toNat]
  rw [if_neg]
  intro hc
  obtain ⟨ha, _⟩ := hc
  have e2 : c.val ≤ 57 := h2
  have hx : (65 : Nat) ≤ c.val.toNat := ha
  have h57 : c.val.toNat ≤ 57 := by exact_mod_cast e2
  omega

theorem lowerStr_digits (d : List Char) (hd : d.all Char.isDigit = true) :
    lowerStr d = d := by
  induction d with
  | nil => rfl
  | cons x xs ih =>
    simp only [List.all_cons, Bool.and_eq_true] at hd
    simp only [lowerStr, List.map_cons]
    rw [toLower_digit x hd.1]
    have := ih hd.2
    simp only [lowerStr] at this
    rw [this]

theorem takeWhile_digits (d b : List Char) (hd : d.all Char.isDigit = true)
    (hb : digitHead b = false) : (d ++ b).takeWhile Char.isDigit = d := by
  induction d with
  | nil =>
    rcases b with _ | ⟨c, t⟩
    · rfl
    · simp only [digitHead] at hb
      simp [List.takeWhile_cons, hb]
  | cons x xs ih =>
    simp only [List.all_cons, Bool.and_eq_true] at hd
    simp only [List.cons_append, List.takeWhile_cons, hd.1, if_true]
    rw [ih hd.2]

theorem statusSearch_cons_pos (c : Char) (t : List Char) (h : statusAt (c :: t)) :
    statusSearch (c :: t) = some (((c :: t).drop 8).takeWhile Char.isDigit) := by
  simp [statusSearch, h]

theorem statusSearch_cons_neg (c : Char) (t : List Char) (h : ¬ statusAt (c :: t)) :
    statusSearch (c :: t) = statusSearch t := by
  simp [statusSearch, h]

theorem statusAt_head (d b : List Char) (hd : d ≠ []) (hdd : d.all Char.isDigit = true) :
    statusAt ("/status/".data ++ (d ++ b)) := by
  constructor
  · exact ⟨d ++ b, rfl⟩
  · rcases d with _ | ⟨x, xs⟩
    · exact absurd rfl hd
    · simp only [List.all_cons, Bool.and_eq_true] at hdd
      have : ("/status/".data ++ (x :: xs ++ b)).drop 8 = x :: (xs ++ b) := rfl
      rw [this]
      simpa [digitHead] using hdd.1

theorem statusSearch_first (a d b : List Char) (hd : d ≠ [])
    (hdd : d.all Char.isDigit = true) (hb : digitHead b = false)
    (hno : ∀ i, i < a.length → ¬ statusAt ((a ++ ("/status/".data ++ (d ++ b))).drop i)) :
    statusSearch (a ++ ("/status/".data ++ (d ++ b))) = some d := by
  induction a with
  | nil =>
    have hcons : ([] : List Char) ++ ("/status/".data ++ (d ++ b)) =
        '/' :: ('s' :: 't' :: 'a' :: 't' :: 'u' :: 's' :: '/' :: (d ++ b)) := rfl
    rw [hcons]
    rw [statusSearch_cons_pos _ _ (by exact statusAt_head d b hd hdd)]
    have hdrop : (('/' :: ('s' :: 't' :: 'a' :: 't' :: 'u' :: 's' :: '/' :: (d ++ b))).drop 8) =
        d ++ b := rfl
    rw [hdrop, takeWhile_digits d b hdd hb]
  | cons c a' ih =>
    have h0 := hno 0 (by simp)
    rw [List.drop_zero] at h0
    have hcons : (c :: a') ++ ("/status/".data ++ (d ++ b)) =
        c :: (a' ++ ("/status/".data ++ (d ++ b))) := rfl
    rw [hcons] at h0 ⊢
    rw [statusSearch_cons_neg _ _ h0]
    apply ih
    intro i hi hat
    have := hno (i + 1) (by simpa using Nat.succ_lt_succ hi)
    rw [hcons, List.drop_succ_cons] at this
    exact this hat

theorem statusSearch_isSome_at (l : List Char) :
    ∀ i, statusAt (l.drop i) → (statusSearch l).isSome := by
  induction l with
  | nil =>
    intro i h
    rw [List.drop_nil] at h
    exact absurd h.1.length_le (by simp)
  | cons c t ih =>
    intro i h
    rcases i with _ | j
    · rw [List.drop_zero] at h
      rw [statusSearch_cons_pos _ _ h]
      rfl
    · rw [List.drop_succ_cons] at h
      by_cases hat : statusAt (c :: t)
      · rw [statusSearch_cons_pos _ _ hat]; rfl
      · rw [statusSearch_cons_neg _ _ hat]
        exact ih j h

/-- C4: the claim quantifies over usernames that appear in the URL
*case-insensitively*, but the source checks the verbatim username
against the lower-cased URL (`username in tweet_lower`): for the URL
`https://x.com/alice/status/123` and username `Alice` the claim's
hypotheses hold — `Alice` appears case-insensitively and the URL has
exactly one `/status/<digits>` segment (at index 19) — yet
`clean_tweet_url` returns its input unchanged instead of the canonical
`https://twitter.com/Alice/status/123`. -/
theorem C4_counterexample :
    caseInsensitiveContains "https://x.com/alice/status/123".data "Alice".data ∧
    (∀ i, i < 30 → statusAt ("https://x.com/alice/status/123".data.drop i) → i = 19) ∧
    cleanTweetUrl "https://x.com/alice/status/123".data "Alice".data =
      .ok "https://x.com/alice/status/123".data ∧
    "https://x.com/alice/status/123".data ≠ canonicalTweet "Alice".data "123".data := by
  decide

/-- C4 (amended): for every raw URL containing exactly one well-formed
`/status/<digits>` segment and every username that occurs verbatim in
the lower-cased URL (in particular any lowercase username appearing
case-insensitively), `clean_tweet_url` yields exactly
`https://twitter.com/<username>/status/<digits>`, the digits taken
from the original-case input. -/
theorem C4_amended (a d b u : List Char) (hd : d ≠ [])
    (hdd : d.all Char.isDigit = true) (hb : digitHead b = false)
    (huniq : ∀ i, i < (a ++ ("/status/".data ++ (d ++ b))).length →
        statusAt ((a ++ ("/status/".data ++ (d ++ b))).drop i) → i = a.length)
    (hu : strContains (lowerStr (a ++ ("/status/".data ++ (d ++ b)))) u) :
    cleanTweetUrl (a ++ ("/status/".data ++ (d ++ b))) u =
      .ok (canonicalTweet u d) := by
  have hno : ∀ i, i < a.length →
      ¬ statusAt ((a ++ ("/status/".data ++ (d ++ b))).drop i) := by
    intro i hi hat
    have hlen : i < (a ++ ("/status/".data ++ (d ++ b))).length := by
      rw [List.length_append]
      omega
    have := huniq i hlen hat
    omega
  have hss : statusSearch (a ++ ("/status/".data ++ (d ++ b))) = some d :=
    statusSearch_first a d b hd hdd hb hno
  have hlsplit : lowerStr (a ++ ("/status/".data ++ (d ++ b))) =
      lowerStr a ++ ("/status/".data ++ (d ++ lowerStr b)) := by
    simp only [lowerStr, List.map_append]
    rw [show "/status/".data.map Char.toLower = "/status/".data from by decide]
    have := lowerStr_digits d hdd
    simp only [lowerStr] at this
    rw [this]
  have hlat : statusAt ((lowerStr (a ++ ("/status/".data ++ (d ++ b)))).drop
      (lowerStr a).length) := by
    rw [hlsplit]
    have : (lowerStr a ++ ("/status/".data ++ (d ++ lowerStr b))).drop (lowerStr a).length =
        "/status/".data ++ (d ++ lowerStr b) := List.drop_left _ _
    rw [this]
    exact statusAt_head d (lowerStr b) hd hdd
  have hls : (statusSearch (lowerStr (a ++ ("/status/".data ++ (d ++ b))))).isSome :=
    statusSearch_isSome_at _ _ hlat
  unfold cleanTweetUrl
  rcases hlsv : statusSearch (lowerStr (a ++ ("/status/".data ++ (d ++ b)))) with _ | ld
  · rw [hlsv] at hls; simp at hls
  · simp only [hlsv]
    rw [if_pos hu, hss]

/-- C4 (witness): the amended theorem applied to
`https://x.com/alice` ++ `/status/` ++ `123` with username `alice`. -/
theorem C4_amended_witness :
    cleanTweetUrl ("https://x.com/alice".data ++ ("/status/".data ++ ("123".data ++ []))) "alice".data =
      .ok (canonicalTweet "alice".data "123".data) :=
  C4_amended "https://x.com/alice".data "123".data [] "alice".data
    (by decide) (by decide) (by decide)
    (by decide)
    (by decide)

theorem cusFuel_irrel : ∀ (f g : Nat) (l : List Char),
    l.length ≤ f → l.length ≤ g → cusFuel f l = cusFuel g l := by
  intro f
  induction f with
  | zero =>
    intro g l hf _
    have : l = [] := List.eq_nil_of_length_eq_zero (Nat.le_zero.mp hf)
    subst this
    cases g <;> rfl
  | succ f ih =>
    intro g l hf hg
    rcases l with _ | ⟨c, t⟩
    · cases g <;> rfl
    rcases g with _ | g'
    · simp at hg
    simp only [cusFuel]
    by_cases h1 : "http://".data <+: (c :: t)
    · rw [if_pos h1, if_pos h1]
      congr 1
      apply ih
      · calc (((c :: t).drop 5).dropWhile (· = '/')).length
            ≤ ((c :: t).drop 5).length := (List.dropWhile_sublist _).length_le
          _ ≤ t.length := by
              simp only [List.length_drop, List.length_cons]
              omega
          _ ≤ f := by simpa using hf
      · calc (((c :: t).drop 5).dropWhile (· = '/')).length
            ≤ ((c :: t).drop 5).length := (List.dropWhile_sublist _).length_le
          _ ≤ t.length := by
              simp only [List.length_drop, List.length_cons]
              omega
          _ ≤ g' := by simpa using hg
    rw [if_neg h1, if_neg h1]
    by_cases h2 : "https://".data <+: (c :: t)
    · rw [if_pos h2, if_pos h2]
      congr 1
      apply ih
      · calc (((c :: t).drop 6).dropWhile (· = '/')).length
            ≤ ((c :: t).drop 6).length := (List.dropWhile_sublist _).length_le
          _ ≤ t.length := by
              simp only [List.length_drop, List.length_cons]
              omega
          _ ≤ f := by simpa using hf
      · calc (((c :: t).drop 6).dropWhile (· = '/')).length
            ≤ ((c :: t).drop 6).length := (List.dropWhile_sublist _).length_le
          _ ≤ t.length := by
              simp only [List.length_drop, List.length_cons]
              omega
          _ ≤ g' := by simpa using hg
    rw [if_neg h2, if_neg h2]
    congr 1
    exact ih g' t (by simpa using hf) (by simpa using hg)

theorem cus_match_http (l : List Char) (h : "http://".data <+: l) :
    checkUrlScheme l = "http://".data ++ checkUrlScheme ((l.drop 5).dropWhile (· = '/')) := by
  have hlen : 7 ≤ l.length := by simpa using h.length_le
  rcases l with _ | ⟨c, t⟩
  · simp at hlen
  show cusFuel (t.length + 1) (c :: t) = _
  simp only [cusFuel]
  rw [if_pos h]
  congr 1
  apply cusFuel_irrel
  · calc (((c :: t).drop 5).dropWhile (· = '/')).length
        ≤ ((c :: t).drop 5).length := (List.dropWhile_sublist _).length_le
      _ ≤ t.length := by
          simp only [List.length_drop, List.length_cons]
          omega
  · exact le_refl _

theorem not_http_of_https (l : List Char) (h : "https://".data <+: l) :
    ¬ "http://".data <+: l := by
  intro h1
  have := List.prefix_of_prefix_length_le h1 h (by simp)
  revert this
  decide

theorem cus_match_https (l : List Char) (h : "https://".data <+: l) :
    checkUrlScheme l = "https://".data ++ checkUrlScheme ((l.drop 6).dropWhile (· = '/')) := by
  have hlen : 8 ≤ l.length := by simpa using h.length_le
  rcases l with _ | ⟨c, t⟩
  · simp at hlen
  show cusFuel (t.length + 1) (c :: t) = _
  simp only [cusFuel]
  rw [if_neg (not_http_of_https _ h), if_pos h]
  congr 1
  apply cusFuel_irrel
  · calc (((c :: t).drop 6).dropWhile (· = '/')).length
        ≤ ((c :: t).drop 6).length := (List.dropWhile_sublist _).length_le
      _ ≤ t.length := by
          simp only [List.length_drop, List.length_cons]
          omega
  · exact le_refl _

theorem cus_cons_nomatch (c : Char) (t : List Char)
    (h1 : ¬ "http://".data <+: (c :: t)) (h2 : ¬ "https://".data <+: (c :: t)) :
    checkUrlScheme (c :: t) = c :: checkUrlScheme t := by
  show cusFuel (t.length + 1) (c :: t) = _
  simp only [cusFuel]
  rw [if_neg h1, if_neg h2]
  rfl

theorem semi_append (x y : List Char) :
    semicolonParser (x ++ y) = semicolonParser x ++ semicolonParser y := by
  induction x with
  | nil => rfl
  | cons c t ih =>
    show semicolonParser (c :: (t ++ y)) = _
    rw [show semicolonParser (c :: (t ++ y)) =
      (if c = ';' then ['%', '3', 'B'] else [c]) ++ semicolonParser (t ++ y) from rfl]
    rw [show semicolonParser (c :: t) =
      (if c = ';' then ['%', '3', 'B'] else [c]) ++ semicolonParser t from rfl]
    rw [ih, List.append_assoc]

theorem semi_pref_refl : ∀ (m w : List Char), '%' ∉ w →
    w <+: semicolonParser m → w <+: m := by
  intro m
  induction m with
  | nil =>
    intro w _ h
    simpa [semicolonParser] using h
  | cons c t ih =>
    intro w hw h
    rcases w with _ | ⟨x, w'⟩
    · exact List.nil_prefix
    by_cases hc : c = ';'
    · subst hc
      rw [show semicolonParser (';' :: t) = '%' :: '3' :: 'B' :: semicolonParser t from rfl] at h
      rw [List.cons_prefix_cons] at h
      exact absurd h.1 (by
        intro he
        exact hw (by rw [he]; simp))
    · rw [show semicolonParser (c :: t) = c :: semicolonParser t from by
        simp [semicolonParser, hc]] at h
      rw [List.cons_prefix_cons] at h ⊢
      exact ⟨h.1, ih w' (fun hx => hw (by simp [hx])) h.2⟩

theorem semi_dropSlash (m : List Char) :
    (semicolonParser m).dropWhile (· = '/') = semicolonParser (m.dropWhile (· = '/')) := by
  induction m with
  | nil => rfl
  | cons c t ih =>
    by_cases hc : c = ';'
    · subst hc
      rw [show semicolonParser (';' :: t) = '%' :: '3' :: 'B' :: semicolonParser t from rfl]
      rw [List.dropWhile_cons, if_neg (by decide)]
      rw [List.dropWhile_cons, if_neg (by decide)]
      rfl
    · rw [show semicolonParser (c :: t) = c :: semicolonParser t from by
        simp [semicolonParser, hc]]
      by_cases hs : c = '/'
      · subst hs
        rw [List.dropWhile_cons, List.dropWhile_cons]
        rw [if_pos (by decide), if_pos (by decide)]
        exact ih
      · rw [List.dropWhile_cons, List.dropWhile_cons]
        rw [if_neg (by simp [hs]), if_neg (by simp [hs])]
        simp [semicolonParser, hc]

theorem semi_of_cons (c : Char) (t : List Char) (hc : c ≠ ';') :
    semicolonParser (c :: t) = c :: semicolonParser t := by
  simp [semicolonParser, hc]

theorem cus_semi_aux : ∀ (n : Nat) (l : List Char), l.length ≤ n →
    checkUrlScheme (semicolonParser l) = semicolonParser (checkUrlScheme l) := by
  intro n
  induction n with
  | zero =>
    intro l hl
    have : l = [] := List.eq_nil_of_length_eq_zero (Nat.le_zero.mp hl)
    subst this
    rfl
  | succ n ih =>
    intro l hl
    rcases l with _ | ⟨c, t⟩
    · rfl
    by_cases hm1 : "http://".data <+: (c :: t)
    · obtain ⟨m, hm⟩ := hm1
      rw [← hm]
      have hsm : semicolonParser ("http://".data ++ m) =
          "http://".data ++ semicolonParser m := by
        rw [semi_append]
        rfl
      rw [hsm]
      rw [cus_match_http _ ⟨semicolonParser m, rfl⟩]
      rw [cus_match_http _ ⟨m, rfl⟩]
      have hd1 : (("http://".data ++ semicolonParser m).drop 5).dropWhile (· = '/') =
          semicolonParser (m.dropWhile (· = '/')) := by
        rw [List.drop_append_of_le_length (by simp)]
        rw [show ("http://".data.drop 5) = ['/', '/'] from rfl]
        rw [show (['/', '/'] ++ semicolonParser m : List Char) =
          '/' :: '/' :: semicolonParser m from rfl]
        rw [List.dropWhile_cons, if_pos (by decide)]
        rw [List.dropWhile_cons, if_pos (by decide)]
        exact semi_dropSlash m
      have hd2 : (("http://".data ++ m).drop 5).dropWhile (· = '/') =
          m.dropWhile (· = '/') := by
        rw [List.drop_append_of_le_length (by simp)]
        rw [show ("http://".data.drop 5) = ['/', '/'] from rfl]
        rw [show ((['/', '/'] : List Char) ++ m) = '/' :: '/' :: m from rfl]
        rw [List.dropWhile_cons, if_pos (by decide)]
        rw [List.dropWhile_cons, if_pos (by decide)]
      rw [hd1, hd2, semi_append]
      rw [show semicolonParser "http://".data = "http://".data from rfl]
      congr 1
      apply ih
      have hml : m.length ≤ n - 6 := by
        rw [← hm] at hl
        simp at hl
        omega
      calc (m.dropWhile (· = '/')).length ≤ m.length := (List.dropWhile_sublist _).length_le
        _ ≤ n := by omega
    by_cases hm2 : "https://".data <+: (c :: t)
    · obtain ⟨m, hm⟩ := hm2
      rw [← hm]
      have hsm : semicolonParser ("https://".data ++ m) =
          "https://".data ++ semicolonParser m := by
        rw [semi_append]
        rfl
      rw [hsm]
      rw [cus_match_https _ ⟨semicolonParser m, rfl⟩]
      rw [cus_match_https _ ⟨m, rfl⟩]
      have hd1 : (("https://".data ++ semicolonParser m).drop 6).dropWhile (· = '/') =
          semicolonParser (m.dropWhile (· = '/')) := by
        rw [List.drop_append_of_le_length (by simp)]
        rw [show ("https://".data.drop 6) = ['/', '/'] from rfl]
        rw [show (['/', '/'] ++ semicolonParser m : List Char) =
          '/' :: '/' :: semicolonParser m from rfl]
        rw [List.dropWhile_cons, if_pos (by decide)]
        rw [List.dropWhile_cons, if_pos (by decide)]
        exact semi_dropSlash m
      have hd2 : (("https://".data ++ m).drop 6).dropWhile (· = '/') =
          m.dropWhile (· = '/') := by
        rw [List.drop_append_of_le_length (by simp)]
        rw [show ("https://".data.drop 6) = ['/', '/'] from rfl]
        rw [show ((['/', '/'] : List Char) ++ m) = '/' :: '/' :: m from rfl]
        rw [List.dropWhile_cons, if_pos (by decide)]
        rw [List.dropWhile_cons, if_pos (by decide)]
      rw [hd1, hd2, semi_append]
      rw [show semicolonParser "https://".data = "https://".data from rfl]
      congr 1
      apply ih
      have hml : m.length ≤ n - 7 := by
        rw [← hm] at hl
        simp at hl
        omega
      calc (m.dropWhile (· = '/')).length ≤ m.length := (List.dropWhile_sublist _).length_le
        _ ≤ n := by omega
    have hihT : checkUrlScheme (semicolonParser t) = semicolonParser (checkUrlScheme t) :=
      ih t (by simpa using Nat.le_of_succ_le_succ (by simpa using hl))
    by_cases hc : c = ';'
    · subst hc
      rw [show semicolonParser (';' :: t) = '%' :: '3' :: 'B' :: semicolonParser t from rfl]
      have n1 : ∀ (x : Char) (xs : List Char), x ≠ 'h' →
          ¬ "http://".data <+: (x :: xs) := by
        intro x xs hx h
        rw [show "http://".data = 'h' :: "ttp://".data from rfl,
          List.cons_prefix_cons] at h
        exact hx h.1.symm
      have n2 : ∀ (x : Char) (xs : List Char), x ≠ 'h' →
          ¬ "https://".data <+: (x :: xs) := by
        intro x xs hx h
        rw [show "https://".data = 'h' :: "ttps://".data from rfl,
          List.cons_prefix_cons] at h
        exact hx h.1.symm
      rw [cus_cons_nomatch _ _ (n1 _ _ (by decide)) (n2 _ _ (by decide))]
      rw [cus_cons_nomatch _ _ (n1 _ _ (by decide)) (n2 _ _ (by decide))]
      rw [cus_cons_nomatch _ _ (n1 _ _ (by decide)) (n2 _ _ (by decide))]
      rw [hihT]
      rw [cus_cons_nomatch _ _ hm1 hm2]
      rfl
    · rw [semi_of_cons _ _ hc]
      have n1 : ¬ "http://".data <+: (c :: semicolonParser t) := by
        intro h
        rw [show "http://".data = 'h' :: "ttp://".data from rfl,
          List.cons_prefix_cons] at h
        apply hm1
        rw [show "http://".data = 'h' :: "ttp://".data from rfl,
          List.cons_prefix_cons]
        exact ⟨h.1, semi_pref_refl t _ (by decide) h.2⟩
      have n2 : ¬ "https://".data <+: (c :: semicolonParser t) := by
        intro h
        rw [show "https://".data = 'h' :: "ttps://".data from rfl,
          List.cons_prefix_cons] at h
        apply hm2
        rw [show "https://".data = 'h' :: "ttps://".data from rfl,
          List.cons_prefix_cons]
        exact ⟨h.1, semi_pref_refl t _ (by decide) h.2⟩
      rw [cus_cons_nomatch _ _ n1 n2]
      rw [hihT]
      rw [cus_cons_nomatch _ _ hm1 hm2]
      rw [semi_of_cons _ _ hc]

theorem semi_no_semicolon (l : List Char) : ';' ∉ semicolonParser l := by
  induction l with
  | nil => simp [semicolonParser]
  | cons c t ih =>
    intro h
    rw [show semicolonParser (c :: t) =
      (if c = ';' then ['%', '3', 'B'] else [c]) ++ semicolonParser t from rfl] at h
    rw [List.mem_append] at h
    rcases h with h | h
    · by_cases hc : c = ';'
      · rw [if_pos hc] at h
        simp at h
      · rw [if_neg hc] at h
        simp at h
        exact hc h.symm
    · exact ih h

theorem semi_id_of_no_semicolon (l : List Char) (h : ';' ∉ l) :
    semicolonParser l = l := by
  induction l with
  | nil => rfl
  | cons c t ih =>
    have hc : c ≠ ';' := fun he => h (by simp [he])
    rw [semi_of_cons _ _ hc, ih (fun hx => h (by simp [hx]))]

theorem cus_pref_refl : ∀ (m w : List Char), 'h' ∉ w →
    w <+: checkUrlScheme m → w <+: m := by
  intro m
  induction m with
  | nil =>
    intro w _ h
    exact h
  | cons c t ih =>
    intro w hw h
    rcases w with _ | ⟨x, w'⟩
    · exact List.nil_prefix
    by_cases hm1 : "http://".data <+: (c :: t)
    · rw [cus_match_http _ hm1] at h
      rw [show ("http://".data ++
          checkUrlScheme (((c :: t).drop 5).dropWhile (· = '/'))) =
        'h' :: ("ttp://".data ++
          checkUrlScheme (((c :: t).drop 5).dropWhile (· = '/'))) from rfl,
        List.cons_prefix_cons] at h
      exact absurd (by rw [h.1]; simp : 'h' ∈ x :: w') hw
    by_cases hm2 : "https://".data <+: (c :: t)
    · rw [cus_match_https _ hm2] at h
      rw [show ("https://".data ++
          checkUrlScheme (((c :: t).drop 6).dropWhile (· = '/'))) =
        'h' :: ("ttps://".data ++
          checkUrlScheme (((c :: t).drop 6).dropWhile (· = '/'))) from rfl,
        List.cons_prefix_cons] at h
      exact absurd (by rw [h.1]; simp : 'h' ∈ x :: w') hw
    rw [cus_cons_nomatch _ _ hm1 hm2, List.cons_prefix_cons] at h
    rw [List.cons_prefix_cons]
    exact ⟨h.1, ih w' (fun hx => hw (by simp [hx])) h.2⟩

theorem cus_no_slash_head (m : List Char) (h : m.dropWhile (· = '/') = m) :
    (checkUrlScheme m).dropWhile (· = '/') = checkUrlScheme m := by
  rcases m with _ | ⟨c, t⟩
  · rfl
  have hc : (c = '/') = False := by
    by_contra hx
    simp only [eq_iff_iff, iff_false] at hx
    push_neg at hx
    rw [List.dropWhile_cons, if_pos (by simp [hx])] at h
    have := congrArg List.length h
    have hle := (List.dropWhile_sublist (l := t) (· = '/')).length_le
    simp at this
    omega
  by_cases hm1 : "http://".data <+: (c :: t)
  · rw [cus_match_http _ hm1]
    rw [show ("http://".data ++
        checkUrlScheme (((c :: t).drop 5).dropWhile (· = '/'))) =
      'h' :: ("ttp://".data ++
        checkUrlScheme (((c :: t).drop 5).dropWhile (· = '/'))) from rfl]
    rw [List.dropWhile_cons, if_neg (by decide)]
  by_cases hm2 : "https://".data <+: (c :: t)
  · rw [cus_match_https _ hm2]
    rw [show ("https://".data ++
        checkUrlScheme (((c :: t).drop 6).dropWhile (· = '/'))) =
      'h' :: ("ttps://".data ++
        checkUrlScheme (((c :: t).drop 6).dropWhile (· = '/'))) from rfl]
    rw [List.dropWhile_cons, if_neg (by decide)]
  rw [cus_cons_nomatch _ _ hm1 hm2]
  rw [List.dropWhile_cons, if_neg (by simp [hc])]

theorem dropWhile_dropWhile (p : Char → Bool) (l : List Char) :
    (l.dropWhile p).dropWhile p = l.dropWhile p := by
  induction l with
  | nil => rfl
  | cons c t ih =>
    rw [List.dropWhile_cons]
    by_cases hc : p c = true
    · rw [if_pos hc]
      exact ih
    · rw [if_neg hc, List.dropWhile_cons,
        if_neg (by simpa using hc)]

theorem cus_idem_aux : ∀ (n : Nat) (l : List Char), l.length ≤ n →
    checkUrlScheme (checkUrlScheme l) = checkUrlScheme l := by
  intro n
  induction n with
  | zero =>
    intro l hl
    have : l = [] := List.eq_nil_of_length_eq_zero (Nat.le_zero.mp hl)
    subst this
    rfl
  | succ n ih =>
    intro l hl
    rcases l with _ | ⟨c, t⟩
    · rfl
    by_cases hm1 : "http://".data <+: (c :: t)
    · rw [cus_match_http _ hm1]
      rw [cus_match_http _ ⟨_, rfl⟩]
      have hdp : (("http://".data ++
          checkUrlScheme (((c :: t).drop 5).dropWhile (· = '/'))).drop 5).dropWhile (· = '/') =
          checkUrlScheme (((c :: t).drop 5).dropWhile (· = '/')) := by
        rw [List.drop_append_of_le_length (by simp)]
        rw [show ("http://".data.drop 5) = ['/', '/'] from rfl]
        have hns := cus_no_slash_head (((c :: t).drop 5).dropWhile (· = '/'))
          (dropWhile_dropWhile _ _)
        simpa [List.dropWhile_cons] using hns
      rw [hdp]
      congr 1
      apply ih
      calc (((c :: t).drop 5).dropWhile (· = '/')).length
          ≤ ((c :: t).drop 5).length := (List.dropWhile_sublist _).length_le
        _ ≤ n := by
            simp only [List.length_drop, List.length_cons]
            have : t.length ≤ n := by simpa using hl
            omega
    by_cases hm2 : "https://".data <+: (c :: t)
    · rw [cus_match_https _ hm2]
      rw [cus_match_https _ ⟨_, rfl⟩]
      have hdp : (("https://".data ++
          checkUrlScheme (((c :: t).drop 6).dropWhile (· = '/'))).drop 6).dropWhile (· = '/') =
          checkUrlScheme (((c :: t).drop 6).dropWhile (· = '/')) := by
        rw [List.drop_append_of_le_length (by simp)]
        rw [show ("https://".data.drop 6) = ['/', '/'] from rfl]
        have hns := cus_no_slash_head (((c :: t).drop 6).dropWhile (· = '/'))
          (dropWhile_dropWhile _ _)
        simpa [List.dropWhile_cons] using hns
      rw [hdp]
      congr 1
      apply ih
      calc (((c :: t).drop 6).dropWhile (· = '/')).length
          ≤ ((c :: t).drop 6).length := (List.dropWhile_sublist _).length_le
        _ ≤ n := by
            simp only [List.length_drop, List.length_cons]
            have : t.length ≤ n := by simpa using hl
            omega
    rw [cus_cons_nomatch _ _ hm1 hm2]
    have n1 : ¬ "http://".data <+: (c :: checkUrlScheme t) := by
      intro h
      rw [show "http://".data = 'h' :: "ttp://".data from rfl,
        List.cons_prefix_cons] at h
      apply hm1
      rw [show "http://".data = 'h' :: "ttp://".data from rfl,
        List.cons_prefix_cons]
      exact ⟨h.1, cus_pref_refl t _ (by decide) h.2⟩
    have n2 : ¬ "https://".data <+: (c :: checkUrlScheme t) := by
      intro h
      rw [show "https://".data = 'h' :: "ttps://".data from rfl,
        List.cons_prefix_cons] at h
      apply hm2
      rw [show "https://".data = 'h' :: "ttps://".data from rfl,
        List.cons_prefix_cons]
      exact ⟨h.1, cus_pref_refl t _ (by decide) h.2⟩
    rw [cus_cons_nomatch _ _ n1 n2]
    rw [ih t (by simpa using Nat.le_of_succ_le_succ (by simpa using hl))]

theorem dropWhile_all_stop (q : Char → Bool) (xs : List Char) (y : Char) (ys : List Char)
    (hxs : ∀ x ∈ xs, q x = true) (hy : q y = false) :
    (xs ++ y :: ys).dropWhile q = y :: ys := by
  induction xs with
  | nil => simp [List.dropWhile_cons, hy]
  | cons x xs ih =>
    have hx := hxs x (by simp)
    simp only [List.cons_append, List.dropWhile_cons, hx, if_true]
    exact ih (fun a ha => hxs a (by simp [ha]))

theorem dropWhile_head_false (p : Char → Bool) :
    ∀ (l : List Char) (y : Char) (ys : List Char), l.dropWhile p = y :: ys → p y = false := by
  intro l
  induction l with
  | nil => intro y ys h; cases h
  | cons c t ih =>
    intro y ys h
    rw [List.dropWhile_cons] at h
    by_cases hc : p c = true
    · rw [if_pos hc] at h
      exact ih y ys h
    · rw [if_neg hc] at h
      cases h
      simpa using hc

theorem digitHead_of_all (d : List Char) (hne : d ≠ []) (hdd : d.all Char.isDigit = true) :
    digitHead d = true := by
  rcases d with _ | ⟨x, xs⟩
  · exact absurd rfl hne
  · simp only [List.all_cons, Bool.and_eq_true] at hdd
    simpa [digitHead] using hdd.1

theorem matchUsernameGroup_props (l u : List Char) (h : matchUsernameGroup l = some u) :
    u ≠ [] ∧ ∀ x ∈ u, x ≠ '/' := by
  simp only [matchUsernameGroup] at h
  split at h
  · split at h
    · rename_i hguard
      cases h
      refine ⟨hguard.1, fun x hx => ?_⟩
      have := List.mem_takeWhile_imp hx
      simpa using this
    · cases h
  · cases h

theorem tweetIdAt_props (l d : List Char) (h : tweetIdAt l = some d) :
    d ≠ [] ∧ d.all Char.isDigit = true := by
  simp only [tweetIdAt] at h
  split at h
  · split at h
    · split at h
      · rename_i hdne
        cases h
        exact ⟨hdne, List.all_takeWhile⟩
      · cases h
    · cases h
  · cases h

theorem searchTweetId_cons (c : Char) (t : List Char) :
    searchTweetId (c :: t) =
      (match tweetIdAt (c :: t) with
        | some d => some d
        | none => searchTweetId t) := rfl

theorem searchTweetId_props (l d : List Char) (h : searchTweetId l = some d) :
    d ≠ [] ∧ d.all Char.isDigit = true := by
  induction l with
  | nil => cases h
  | cons c t ih =>
    rw [searchTweetId_cons] at h
    rcases ht : tweetIdAt (c :: t) with _ | d'
    · rw [ht] at h
      exact ih h
    · rw [ht] at h
      cases h
      exact tweetIdAt_props _ _ ht

theorem canonicalTweet_eq (u d : List Char) :
    canonicalTweet u d =
      "https://twitter.com/".data ++ (u ++ ("/status/".data ++ d)) := by
  unfold canonicalTweet
  simp [List.append_assoc]

theorem canonicalTweet_drop20 (u d : List Char) :
    (canonicalTweet u d).drop 20 = u ++ ("/status/".data ++ d) := by
  rw [canonicalTweet_eq]
  have h20 : ("https://twitter.com/".data).length = 20 := rfl
  rw [← h20]
  exact List.drop_left _ _

theorem matchUsernameGroup_canonical (u d : List Char) (hu : u ≠ [])
    (hus : ∀ x ∈ u, x ≠ '/') (hd : d ≠ []) (hdd : d.all Char.isDigit = true) :
    matchUsernameGroup (canonicalTweet u d) = some u := by
  unfold matchUsernameGroup
  have hpref : "https://twitter.com/".data <+: canonicalTweet u d := by
    rw [canonicalTweet_eq]
    exact ⟨_, rfl⟩
  rw [if_pos hpref, canonicalTweet_drop20]
  have hcons : u ++ ("/status/".data ++ d) =
      u ++ '/' :: ("status/".data ++ d) := rfl
  rw [hcons]
  have htw : (u ++ '/' :: ("status/".data ++ d)).takeWhile (· ≠ '/') = u :=
    takeWhile_all_stop _ _ _ _
      (fun x hx => by simpa using hus x hx) (by simp)
  have hdw : (u ++ '/' :: ("status/".data ++ d)).dropWhile (· ≠ '/') =
      '/' :: ("status/".data ++ d) :=
    dropWhile_all_stop _ _ _ _
      (fun x hx => by simpa using hus x hx) (by simp)
  rw [htw, hdw]
  have hguard : u ≠ [] ∧ "/status/".data <+: ('/' :: ("status/".data ++ d)) ∧
      digitHead (('/' :: ("status/".data ++ d)).drop 8) = true := by
    refine ⟨hu, ⟨d, rfl⟩, ?_⟩
    have hdr : ('/' :: ("status/".data ++ d)).drop 8 = d := rfl
    rw [hdr]
    exact digitHead_of_all d hd hdd
  rw [if_pos hguard]

theorem takeWhile_all (d : List Char) (hdd : d.all Char.isDigit = true) :
    d.takeWhile Char.isDigit = d := by
  have := takeWhile_digits d [] hdd (by rfl)
  simpa using this

theorem tweetIdAt_cond1 (u d : List Char) :
    "https://twitter".data <+: canonicalTweet u d ∧
      (canonicalTweet u d).drop 15 ≠ [] ∧
      "com/".data <+: (canonicalTweet u d).drop 16 := by
  refine ⟨?_, ?_, ?_⟩
  · have h1 : "https://twitter".data <+: "https://twitter.com/".data := by decide
    have h2 : "https://twitter.com/".data <+: canonicalTweet u d := by
      rw [canonicalTweet_eq]
      exact ⟨_, rfl⟩
    exact h1.trans h2
  · rw [canonicalTweet_eq, List.drop_append_of_le_length (by simp)]
    rw [show "https://twitter.com/".data.drop 15 = ".com/".data from rfl]
    simp
  · rw [canonicalTweet_eq, List.drop_append_of_le_length (by simp)]
    rw [show "https://twitter.com/".data.drop 16 = "com/".data from rfl]
    exact ⟨_, rfl⟩

theorem tweetIdAt_canonical_word (u d : List Char) (hu : u ≠ [])
    (hd : d ≠ []) (hdd : d.all Char.isDigit = true)
    (hw : u.all isWordChar = true) :
    tweetIdAt (canonicalTweet u d) = some d := by
  simp only [tweetIdAt]
  rw [if_pos (tweetIdAt_cond1 u d)]
  rw [canonicalTweet_drop20]
  rw [show u ++ ("/status/".data ++ d) = u ++ '/' :: ("status/".data ++ d) from rfl]
  have htw : (u ++ '/' :: ("status/".data ++ d)).takeWhile isWordChar = u :=
    takeWhile_all_stop _ _ _ _
      (fun x hx => by
        rw [List.all_eq_true] at hw
        exact hw x hx)
      (by decide)
  have hdw : (u ++ '/' :: ("status/".data ++ d)).dropWhile isWordChar =
      '/' :: ("status/".data ++ d) :=
    dropWhile_all_stop _ _ _ _
      (fun x hx => by
        rw [List.all_eq_true] at hw
        exact hw x hx)
      (by decide)
  rw [htw, hdw]
  rw [if_pos ⟨hu, ⟨d, rfl⟩⟩]
  rw [show ('/' :: ("status/".data ++ d)).drop 8 = d from rfl]
  rw [takeWhile_all d hdd]
  rw [if_pos hd]

theorem tweetIdAt_canonical_nonword (u d : List Char)
    (hus : ∀ x ∈ u, x ≠ '/') (hw : u.all isWordChar = false) :
    tweetIdAt (canonicalTweet u d) = none := by
  simp only [tweetIdAt]
  rw [if_pos (tweetIdAt_cond1 u d)]
  rw [canonicalTweet_drop20]
  rw [show u ++ ("/status/".data ++ d) = u ++ '/' :: ("status/".data ++ d) from rfl]
  have hdropne : u.dropWhile isWordChar ≠ [] := by
    intro hnil
    rw [List.dropWhile_eq_nil_iff] at hnil
    rw [List.all_eq_false] at hw
    obtain ⟨x, hx, hxw⟩ := hw
    exact hxw (hnil x hx)
  rcases hdrop : u.dropWhile isWordChar with _ | ⟨y, u2⟩
  · exact absurd hdrop hdropne
  have hy : isWordChar y = false := dropWhile_head_false _ u y u2 hdrop
  have hysl : y ≠ '/' := by
    apply hus
    have := List.takeWhile_append_dropWhile (p := isWordChar) (l := u)
    rw [hdrop] at this
    rw [← this]
    simp
  have hsplit : u ++ '/' :: ("status/".data ++ d) =
      u.takeWhile isWordChar ++ (y :: (u2 ++ '/' :: ("status/".data ++ d))) := by
    conv_lhs => rw [← List.takeWhile_append_dropWhile (p := isWordChar) (l := u)]
    rw [hdrop]
    simp
  rw [hsplit]
  have htw : (u.takeWhile isWordChar ++ (y :: (u2 ++ '/' :: ("status/".data ++ d)))).takeWhile
      isWordChar = u.takeWhile isWordChar :=
    takeWhile_all_stop _ _ _ _ (fun x hx => List.mem_takeWhile_imp hx) hy
  have hdw : (u.takeWhile isWordChar ++ (y :: (u2 ++ '/' :: ("status/".data ++ d)))).dropWhile
      isWordChar = y :: (u2 ++ '/' :: ("status/".data ++ d)) :=
    dropWhile_all_stop _ _ _ _ (fun x hx => List.mem_takeWhile_imp hx) hy
  rw [htw, hdw]
  rw [if_neg]
  intro hguard
  have hpref := hguard.2
  rw [List.cons_prefix_cons] at hpref
  exact hysl hpref.1.symm

theorem suffix_append_split {s A B : List Char} (h : s <:+ A ++ B) :
    s <:+ B ∨ ∃ s₁, s₁ ≠ [] ∧ s₁ <:+ A ∧ s = s₁ ++ B := by
  obtain ⟨pre, hpre⟩ := h
  rcases List.append_eq_append_iff.mp hpre with ⟨a', hA, hs⟩ | ⟨c', _, hB⟩
  · rcases a' with _ | ⟨x, xs⟩
    · left
      rw [hs]
      simp
    · right
      exact ⟨x :: xs, by simp, ⟨pre, hA.symm⟩, hs⟩
  · left
    exact ⟨c', hB.symm⟩

theorem head_mem_of_suffix {y : Char} {ys A : List Char} (h : (y :: ys) <:+ A) : y ∈ A := by
  obtain ⟨pre, hpre⟩ := h
  rw [← hpre]
  simp

theorem mem_of_suffix {x : Char} {s A : List Char} (h : s <:+ A) (hx : x ∈ s) : x ∈ A := by
  obtain ⟨pre, hpre⟩ := h
  rw [← hpre]
  simp [hx]

theorem patdrop_no (d : List Char) :
    ∀ (s₁ : List Char) (k : Nat), k ≤ 7 → (∀ x ∈ s₁, x ≠ '/') →
    ¬ ("https://twitter".data.drop k <+: (s₁ ++ ("/status/".data ++ d))) := by
  intro s₁
  induction s₁ with
  | nil =>
    intro k hk hx h
    simp only [List.nil_append] at h
    interval_cases k
    · rw [show "https://twitter".data.drop 0 = "https://twitter".data from rfl] at h
      simp [List.cons_prefix_cons] at h
    · rw [show "https://twitter".data.drop 1 = "ttps://twitter".data from rfl] at h
      simp [List.cons_prefix_cons] at h
    · rw [show "https://twitter".data.drop 2 = "tps://twitter".data from rfl] at h
      simp [List.cons_prefix_cons] at h
    · rw [show "https://twitter".data.drop 3 = "ps://twitter".data from rfl] at h
      simp [List.cons_prefix_cons] at h
    · rw [show "https://twitter".data.drop 4 = "s://twitter".data from rfl] at h
      simp [List.cons_prefix_cons] at h
    · rw [show "https://twitter".data.drop 5 = "://twitter".data from rfl] at h
      simp [List.cons_prefix_cons] at h
    · rw [show "https://twitter".data.drop 6 = "//twitter".data from rfl] at h
      simp [List.cons_prefix_cons] at h
    · rw [show "https://twitter".data.drop 7 = "/twitter".data from rfl] at h
      simp [List.cons_prefix_cons] at h
  | cons x s₁' ih =>
    intro k hk hx h
    have hxs : x ≠ '/' := hx x (by simp)
    have hcons : (x :: s₁') ++ ("/status/".data ++ d) =
        x :: (s₁' ++ ("/status/".data ++ d)) := rfl
    rw [hcons] at h
    interval_cases k
    · rw [show "https://twitter".data.drop 0 =
        'h' :: ("https://twitter".data.drop 1) from rfl, List.cons_prefix_cons] at h
      exact ih 1 (by omega) (fun a ha => hx a (by simp [ha])) h.2
    · rw [show "https://twitter".data.drop 1 =
        't' :: ("https://twitter".data.drop 2) from rfl, List.cons_prefix_cons] at h
      exact ih 2 (by omega) (fun a ha => hx a (by simp [ha])) h.2
    · rw [show "https://twitter".data.drop 2 =
        't' :: ("https://twitter".data.drop 3) from rfl, List.cons_prefix_cons] at h
      exact ih 3 (by omega) (fun a ha => hx a (by simp [ha])) h.2
    · rw [show "https://twitter".data.drop 3 =
        'p' :: ("https://twitter".data.drop 4) from rfl, List.cons_prefix_cons] at h
      exact ih 4 (by omega) (fun a ha => hx a (by simp [ha])) h.2
    · rw [show "https://twitter".data.drop 4 =
        's' :: ("https://twitter".data.drop 5) from rfl, List.cons_prefix_cons] at h
      exact ih 5 (by omega) (fun a ha => hx a (by simp [ha])) h.2
    · rw [show "https://twitter".data.drop 5 =
        ':' :: ("https://twitter".data.drop 6) from rfl, List.cons_prefix_cons] at h
      exact ih 6 (by omega) (fun a ha => hx a (by simp [ha])) h.2
    · rw [show "https://twitter".data.drop 6 =
        '/' :: ("https://twitter".data.drop 7) from rfl, List.cons_prefix_cons] at h
      exact hxs h.1.symm
    · rw [show "https://twitter".data.drop 7 =
        '/' :: ("https://twitter".data.drop 8) from rfl, List.cons_prefix_cons] at h
      exact hxs h.1.symm

theorem digit_ne_h {y : Char} (hy : y.isDigit = true) : y ≠ 'h' := by
  intro he
  subst he
  simp [Char.isDigit] at hy

theorem no_pat_in_tail (u d : List Char) (hus : ∀ x ∈ u, x ≠ '/')
    (hdd : d.all Char.isDigit = true) :
    ∀ s, s <:+ ("ttps://twitter.com/".data ++ (u ++ ("/status/".data ++ d))) →
      ¬ ("https://twitter".data <+: s) := by
  intro s hs hp
  rcases suffix_append_split hs with hsB | ⟨s₁, hne, hsA, rfl⟩
  · rcases suffix_append_split hsB with hsC | ⟨s₁, hne, hsU, rfl⟩
    · rcases suffix_append_split hsC with hsD | ⟨s₂, hne2, hsSD, rfl⟩
      · rcases hsD with ⟨pre, hpre⟩
        rcases s with _ | ⟨y, ys⟩
        · have := hp.length_le
          simp at this
        · have hymem : y ∈ d := by
            rw [← hpre]
            simp
          rw [List.all_eq_true] at hdd
          have hyd := hdd y hymem
          rw [show "https://twitter".data = 'h' :: "ttps://twitter".data from rfl,
            List.cons_prefix_cons] at hp
          exact digit_ne_h hyd hp.1.symm
      · rcases s₂ with _ | ⟨y, ys⟩
        · exact absurd rfl hne2
        · have hymem : y ∈ "/status/".data := head_mem_of_suffix hsSD
          have hyh : y ≠ 'h' := by
            have hall : ∀ z ∈ "/status/".data, z ≠ 'h' := by decide
            exact hall y hymem
          rw [show (y :: ys) ++ d = y :: (ys ++ d) from rfl] at hp
          rw [show "https://twitter".data = 'h' :: "ttps://twitter".data from rfl,
            List.cons_prefix_cons] at hp
          exact hyh hp.1.symm
    · have hss : ∀ x ∈ s₁, x ≠ '/' := fun x hx => hus x (mem_of_suffix hsU hx)
      exact patdrop_no d s₁ 0 (by omega) hss hp
  · rcases s₁ with _ | ⟨y, ys⟩
    · exact absurd rfl hne
    · have hymem : y ∈ "ttps://twitter.com/".data := head_mem_of_suffix hsA
      have hyh : y ≠ 'h' := by
        have hall : ∀ z ∈ "ttps://twitter.com/".data, z ≠ 'h' := by decide
        exact hall y hymem
      rw [show (y :: ys) ++ (u ++ ("/status/".data ++ d)) =
        y :: (ys ++ (u ++ ("/status/".data ++ d))) from rfl] at hp
      rw [show "https://twitter".data = 'h' :: "ttps://twitter".data from rfl,
        List.cons_prefix_cons] at hp
      exact hyh hp.1.symm

theorem searchTweetId_none_of (l : List Char)
    (h : ∀ s, s <:+ l → ¬ ("https://twitter".data <+: s)) :
    searchTweetId l = none := by
  induction l with
  | nil => rfl
  | cons c t ih =>
    rw [searchTweetId_cons]
    have hti : tweetIdAt (c :: t) = none := by
      simp only [tweetIdAt]
      rw [if_neg]
      intro hc
      exact h (c :: t) (List.suffix_refl _) hc.1
    rw [hti]
    exact ih (fun s hs => h s (hs.trans (List.suffix_cons c t)))

theorem canonicalTweet_cons (u d : List Char) :
    canonicalTweet u d =
      'h' :: ("ttps://twitter.com/".data ++ (u ++ ("/status/".data ++ d))) := by
  rw [canonicalTweet_eq]
  rfl

theorem searchTweetId_canonical_word (u d : List Char) (hu : u ≠ [])
    (hd : d ≠ []) (hdd : d.all Char.isDigit = true)
    (hw : u.all isWordChar = true) :
    searchTweetId (canonicalTweet u d) = some d := by
  rw [canonicalTweet_cons, searchTweetId_cons, ← canonicalTweet_cons,
    tweetIdAt_canonical_word u d hu hd hdd hw]

theorem searchTweetId_canonical_nonword (u d : List Char)
    (hus : ∀ x ∈ u, x ≠ '/') (hdd : d.all Char.isDigit = true)
    (hw : u.all isWordChar = false) :
    searchTweetId (canonicalTweet u d) = none := by
  rw [canonicalTweet_cons, searchTweetId_cons, ← canonicalTweet_cons,
    tweetIdAt_canonical_nonword u d hus hw]
  exact searchTweetId_none_of _ (no_pat_in_tail u d hus hdd)

theorem dtp_none1 (l : List Char) (h : matchUsernameGroup l = none) :
    deleteTweetPathnames l = l := by
  unfold deleteTweetPathnames
  rw [h]

theorem dtp_none2 (l : List Char) (h : searchTweetId l = none) :
    deleteTweetPathnames l = l := by
  unfold deleteTweetPathnames
  rw [h]
  rcases matchUsernameGroup l with _ | u <;> rfl

theorem dtp_idem (l : List Char) :
    deleteTweetPathnames (deleteTweetPathnames l) = deleteTweetPathnames l := by
  rcases hmu : matchUsernameGroup l with _ | u
  · rw [dtp_none1 l hmu, dtp_none1 l hmu]
  rcases hsi : searchTweetId l with _ | d
  · rw [dtp_none2 l hsi, dtp_none2 l hsi]
  have hdtp : deleteTweetPathnames l = canonicalTweet u d := by
    unfold deleteTweetPathnames
    rw [hmu, hsi]
  obtain ⟨hune, hus⟩ := matchUsernameGroup_props l u hmu
  obtain ⟨hdne, hdd⟩ := searchTweetId_props l d hsi
  have h2 : deleteTweetPathnames (canonicalTweet u d) = canonicalTweet u d := by
    have hmuR := matchUsernameGroup_canonical u d hune hus hdne hdd
    rcases hw : u.all isWordChar with _ | _
    · have hR := searchTweetId_canonical_nonword u d hus hdd hw
      exact dtp_none2 _ hR
    · have hR := searchTweetId_canonical_word u d hune hdne hdd hw
      unfold deleteTweetPathnames
      rw [hmuR, hR]
  rw [hdtp, h2]

/-- C10: `semicolon_parser` and `check_url_scheme` commute: applying
the two final repair steps in either order yields the same string.
Escaping a semicolon never creates or destroys a `http:`/`https:` +
slashes match, and collapsing slashes never touches a semicolon. -/
theorem C10_commute (l : List Char) :
    checkUrlScheme (semicolonParser l) = semicolonParser (checkUrlScheme l) :=
  cus_semi_aux l.length l (le_refl _)

/-- C7: two of the listed canonicalizer steps are not idempotent.
`check_pattern_tweet` on `/status/&quot;/status/"abc"` extracts
`/status/"abc"`, and a second pass extracts `abc`.  `clean_tweet_url`
with the (pathological but legal) username `x/status/7y` rewrites
`https://a/status/5/x/status/7y` to a URL whose *first*
`/status/<digits>` match now lies inside the username, so a second
pass changes the digits from 5 to 7. -/
theorem C7_counterexample :
    checkPatternTweet (checkPatternTweet "/status/&quot;/status/\"abc\"".data) ≠
      checkPatternTweet "/status/&quot;/status/\"abc\"".data ∧
    cleanTweetUrl "https://a/status/5/x/status/7y".data "x/status/7y".data =
      .ok "https://twitter.com/x/status/7y/status/5".data ∧
    cleanTweetUrl "https://twitter.com/x/status/7y/status/5".data "x/status/7y".data =
      .ok "https://twitter.com/x/status/7y/status/7".data ∧
    ("https://twitter.com/x/status/7y/status/7".data : List Char) ≠
      "https://twitter.com/x/status/7y/status/5".data := by decide

/-- C7 (amended): of the individual canonicalizer steps,
`delete_tweet_pathnames`, `semicolon_parser` and `check_url_scheme`
are idempotent on every string; `check_pattern_tweet` and
`clean_tweet_url` are not idempotent in general (see the
counterexample). -/
theorem C7_amended :
    (∀ s : List Char, semicolonParser (semicolonParser s) = semicolonParser s) ∧
    (∀ s : List Char, checkUrlScheme (checkUrlScheme s) = checkUrlScheme s) ∧
    (∀ s : List Char,
      deleteTweetPathnames (deleteTweetPathnames s) = deleteTweetPathnames s) :=
  ⟨fun s => semi_id_of_no_semicolon _ (semi_no_semicolon s),
   fun s => cus_idem_aux s.length s (le_refl _),
   dtp_idem⟩

end WaybackTweets
